import Mathlib

/-!
Verification development for the client-metrics aggregation pipeline of the
repository (module `client-metrics-store-v2`).  The TypeScript source is
shallowly embedded: timestamps are natural numbers counting seconds since the
epoch, database tables are lists of typed rows, and the `INSERT ... ON
CONFLICT (pk) DO UPDATE SET col = stored.col + EXCLUDED.col` statements issued
by the store are embedded as a per-row insert-or-accumulate fold over the
table.  JavaScript strings are Lean `String`s; the locale-dependent
`localeCompare` is modelled as code-point lexicographic comparison, and the
decimal rendering performed by template literals is modelled by `numStr`.
-/

set_option maxRecDepth 4000

namespace UnleashMetrics

/-- One reported observation (`IClientMetricsEnv`): feature, app, environment,
a timestamp in seconds, the yes/no counters and an optional variant
name-to-count mapping (absent is modelled by the empty list). -/
@[ext] structure IClientMetricsEnv where
  featureName : String
  appName : String
  environment : String
  timestamp : Nat
  yes : Nat
  no : Nat
  variants : List (String × Nat)
  deriving DecidableEq, Repr

/-- Key of an hourly record (`IClientMetricsEnvKey`). -/
structure IClientMetricsEnvKey where
  featureName : String
  appName : String
  environment : String
  timestamp : Nat
  deriving DecidableEq, Repr

/-- One spread variant observation (`IClientMetricsEnvVariant`). -/
structure IClientMetricsEnvVariant where
  featureName : String
  appName : String
  environment : String
  timestamp : Nat
  variant : String
  count : Nat
  deriving DecidableEq, Repr

/-- A persisted row of table `client_metrics_env` (`ClientMetricsEnvTable`). -/
@[ext] structure ClientMetricsEnvTable where
  feature_name : String
  app_name : String
  environment : String
  timestamp : Nat
  yes : Nat
  no : Nat
  deriving DecidableEq, Repr

/-- A persisted row of table `client_metrics_env_variants`
(`ClientMetricsEnvVariantTable`). -/
@[ext] structure ClientMetricsEnvVariantTable where
  feature_name : String
  app_name : String
  environment : String
  timestamp : Nat
  variant : String
  count : Nat
  deriving DecidableEq, Repr

/-- A persisted row of table `client_metrics_total`. -/
@[ext] structure ClientMetricsTotalTable where
  feature_name : String
  environment : String
  total : Nat
  deriving DecidableEq, Repr

/-- `startOfHour` from date-fns: floor a timestamp to its containing hour. -/
def startOfHour (t : Nat) : Nat := t / 3600 * 3600

theorem startOfHour_idem (t : Nat) : startOfHour (startOfHour t) = startOfHour t := by
  unfold startOfHour
  rw [Nat.mul_div_cancel _ (by norm_num)]

theorem startOfHour_le (t : Nat) : startOfHour t ≤ t := by
  unfold startOfHour
  exact Nat.div_mul_le_self t 3600

/-- `fromRow`: reconstruct a logical record from a persisted hourly row. -/
def fromRow (row : ClientMetricsEnvTable) : IClientMetricsEnv :=
  { featureName := row.feature_name
    appName := row.app_name
    environment := row.environment
    timestamp := row.timestamp
    yes := row.yes
    no := row.no
    variants := [] }

/-- `toRow`: turn a metric into a persisted hourly row, flooring its
timestamp to the start of its hour. -/
def toRow (metric : IClientMetricsEnv) : ClientMetricsEnvTable :=
  { feature_name := metric.featureName
    app_name := metric.appName
    environment := metric.environment
    timestamp := startOfHour metric.timestamp
    yes := metric.yes
    no := metric.no }

/-- `toVariantRow`: turn a spread variant metric into a persisted variant row,
flooring its timestamp to the start of its hour. -/
def toVariantRow (metric : IClientMetricsEnvVariant) : ClientMetricsEnvVariantTable :=
  { feature_name := metric.featureName
    app_name := metric.appName
    environment := metric.environment
    timestamp := startOfHour metric.timestamp
    variant := metric.variant
    count := metric.count }

section Upsert

/-!
Generic insert-or-accumulate machinery.  A table is a list of rows `ρ`, each
carrying a primary key `key r : κ`.  `upsertRow` is the effect of one row of
an `INSERT ... ON CONFLICT (pk) DO UPDATE SET c = stored.c + EXCLUDED.c`
statement: if a row with the same key exists it is replaced by `add old new`,
otherwise the new row is appended.  The same fold also embeds the in-memory
group-by accumulators of the source (they create an entry on first sight of a
key and add to it afterwards).
-/

variable {κ ρ : Type} [DecidableEq κ] (key : ρ → κ) (add : ρ → ρ → ρ)

/-- Insert `r`, or accumulate it onto the row already holding its key. -/
def upsertRow (t : List ρ) (r : ρ) : List ρ :=
  match t with
  | [] => [r]
  | s :: rest => if key s = key r then add s r :: rest else s :: upsertRow rest r

/-- Apply a whole batch of rows, one insert-or-accumulate at a time. -/
def applyRows (t : List ρ) (rows : List ρ) : List ρ :=
  rows.foldl (upsertRow key add) t

/-- Look up the row holding key `k`. -/
def lookupKey (t : List ρ) (k : κ) : Option ρ :=
  t.find? (fun s => decide (key s = k))

theorem lookupKey_nil (k : κ) : lookupKey key ([] : List ρ) k = none := rfl

theorem lookupKey_cons (s : ρ) (rest : List ρ) (k : κ) :
    lookupKey key (s :: rest) k =
      if key s = k then some s else lookupKey key rest k := by
  by_cases h : key s = k
  · simp [lookupKey, List.find?_cons_of_pos, h]
  · simp [lookupKey, List.find?_cons_of_neg, h]

theorem lookupKey_upsert (hkey : ∀ s r, key (add s r) = key s)
    (t : List ρ) (r : ρ) (k : κ) :
    lookupKey key (upsertRow key add t r) k =
      if k = key r then
        some (match lookupKey key t k with
              | some s => add s r
              | none => r)
      else lookupKey key t k := by
  induction t with
  | nil =>
      by_cases h : k = key r
      · simp [upsertRow, lookupKey_cons, lookupKey_nil, h]
      · have h' : ¬ (key r = k) := fun hc => h hc.symm
        simp [upsertRow, lookupKey_cons, lookupKey_nil, h, h']
  | cons s rest ih =>
      by_cases hsr : key s = key r
      · by_cases hsk : key s = k
        · have hk : k = key r := by rw [← hsk, hsr]
          have hak : key (add s r) = k := by rw [hkey, hsk]
          simp [upsertRow, hsr, lookupKey_cons, hsk, hak, hk]
        · have hk : ¬ (k = key r) := by
            intro hc; apply hsk; rw [hsr, ← hc]
          have hk' : ¬ (key r = k) := fun hc => hk hc.symm
          have hak : ¬ (key (add s r) = k) := by rw [hkey]; exact hsk
          simp [upsertRow, hsr, lookupKey_cons, hsk, hak, hk, hk']
      · by_cases hsk : key s = k
        · have hk : ¬ (k = key r) := by intro hc; apply hsr; rw [hsk, hc]
          simp [upsertRow, hsr, lookupKey_cons, hsk, hk]
        · simp only [upsertRow, if_neg hsr, lookupKey_cons, if_neg hsk]
          exact ih

/-- The central characterization: after applying a whole batch, the row at key
`k` is the old row (if any) with every batch row at `k` accumulated onto it in
batch order; a fresh key starts from its first batch row.  No assumption at
all is made about duplicate keys inside the batch. -/
theorem lookupKey_applyRows (hkey : ∀ s r, key (add s r) = key s)
    (t : List ρ) (rows : List ρ) (k : κ) :
    lookupKey key (applyRows key add t rows) k =
      match lookupKey key t k, rows.filter (fun r => decide (key r = k)) with
      | some s, l => some (l.foldl add s)
      | none, [] => none
      | none, r0 :: rest => some (rest.foldl add r0) := by
  induction rows generalizing t with
  | nil =>
      cases h : lookupKey key t k <;> simp [applyRows, h]
  | cons r rs ih =>
      have step : applyRows key add t (r :: rs) = applyRows key add (upsertRow key add t r) rs := rfl
      rw [step, ih, lookupKey_upsert key add hkey]
      by_cases hrk : key r = k
      · rw [if_pos hrk.symm, List.filter_cons,
           if_pos (show decide (key r = k) = true from decide_eq_true hrk)]
        cases h : lookupKey key t k with
        | some s => rfl
        | none => rfl
      · rw [if_neg (show ¬ k = key r from fun hc => hrk hc.symm), List.filter_cons,
           if_neg (show ¬ decide (key r = k) = true from by simp [hrk])]

/-- Tables keyed by a primary key: at most one row per key. -/
def NodupKeys (t : List ρ) : Prop :=
  t.Pairwise (fun a b => key a ≠ key b)

/-- A row whose key is absent is appended to the table unchanged. -/
theorem upsertRow_of_lookup_none (t : List ρ) (r : ρ)
    (h : lookupKey key t (key r) = none) :
    upsertRow key add t r = t ++ [r] := by
  induction t with
  | nil => rfl
  | cons s rest ih =>
      rw [lookupKey_cons] at h
      by_cases hs : key s = key r
      · rw [if_pos hs] at h
        exact absurd h (by simp)
      · rw [if_neg hs] at h
        unfold upsertRow
        rw [if_neg hs, ih h]
        rfl

/-- Applying a batch to the empty table: the row at `k` accumulates exactly
the batch rows at `k`. -/
theorem lookupKey_applyRows_nil (hkey : ∀ s r, key (add s r) = key s)
    (rows : List ρ) (k : κ) :
    lookupKey key (applyRows key add [] rows) k =
      match rows.filter (fun r => decide (key r = k)) with
      | [] => none
      | r0 :: rest => some (rest.foldl add r0) := by
  rw [lookupKey_applyRows key add hkey, lookupKey_nil]
  cases hf : rows.filter (fun r => decide (key r = k)) with
  | nil => rfl
  | cons r0 rest => rfl

/-- Applying the same batch twice to the empty table: the row at `k`
accumulates the batch rows at `k` twice over. -/
theorem lookupKey_applyRows_twice (hkey : ∀ s r, key (add s r) = key s)
    (rows : List ρ) (k : κ) :
    lookupKey key (applyRows key add (applyRows key add [] rows) rows) k =
      match rows.filter (fun r => decide (key r = k)) with
      | [] => none
      | r0 :: rest => some ((r0 :: rest).foldl add (rest.foldl add r0)) := by
  rw [lookupKey_applyRows key add hkey, lookupKey_applyRows_nil key add hkey]
  cases hf : rows.filter (fun r => decide (key r = k)) with
  | nil => rfl
  | cons r0 rest => rfl

/-- Every row of an upserted table carries either a key already in the table
or the key of the inserted row. -/
theorem key_mem_upsertRow (hkey : ∀ s r, key (add s r) = key s)
    (t : List ρ) (r : ρ) (b : ρ) (hb : b ∈ upsertRow key add t r) :
    (∃ s ∈ t, key b = key s) ∨ key b = key r := by
  induction t with
  | nil =>
      simp [upsertRow] at hb
      right; rw [hb]
  | cons s rest ih =>
      by_cases hsr : key s = key r
      · unfold upsertRow at hb
        rw [if_pos hsr] at hb
        rcases List.mem_cons.mp hb with hb1 | hb2
        · left; exact ⟨s, List.mem_cons_self s rest, by rw [hb1, hkey]⟩
        · left; exact ⟨b, List.mem_cons_of_mem s hb2, rfl⟩
      · unfold upsertRow at hb
        rw [if_neg hsr] at hb
        rcases List.mem_cons.mp hb with hb1 | hb2
        · left; exact ⟨s, List.mem_cons_self s rest, by rw [hb1]⟩
        · rcases ih hb2 with ⟨s', hs', hk'⟩ | hk'
          · left; exact ⟨s', List.mem_cons_of_mem s hs', hk'⟩
          · right; exact hk'

theorem nodupKeys_upsert (hkey : ∀ s r, key (add s r) = key s)
    (t : List ρ) (r : ρ) (h : NodupKeys key t) :
    NodupKeys key (upsertRow key add t r) := by
  induction t with
  | nil =>
      simp [upsertRow, NodupKeys]
  | cons s rest ih =>
      rcases (List.pairwise_cons.mp h) with ⟨hs, hrest⟩
      by_cases hsr : key s = key r
      · unfold upsertRow
        rw [if_pos hsr]
        exact List.pairwise_cons.mpr ⟨fun b hb => by rw [hkey]; exact hs b hb, hrest⟩
      · unfold upsertRow
        rw [if_neg hsr]
        refine List.pairwise_cons.mpr ⟨?_, ih hrest⟩
        intro b hb
        rcases key_mem_upsertRow key add hkey rest r b hb with ⟨s', hs', hk'⟩ | hkeq
        · rw [hk']; exact hs s' hs'
        · rw [hkeq]; exact hsr

theorem nodupKeys_applyRows (hkey : ∀ s r, key (add s r) = key s)
    (t : List ρ) (rows : List ρ) (h : NodupKeys key t) :
    NodupKeys key (applyRows key add t rows) := by
  induction rows generalizing t with
  | nil => exact h
  | cons r rs ih => exact ih _ (nodupKeys_upsert key add hkey t r h)

/-- An additive measure distributes over the accumulation fold. -/
theorem measure_foldl_add (μ : ρ → Nat) (hμ : ∀ s r, μ (add s r) = μ s + μ r)
    (s : ρ) (l : List ρ) :
    μ (l.foldl add s) = μ s + (l.map μ).sum := by
  induction l generalizing s with
  | nil => simp
  | cons x xs ih =>
      simp only [List.foldl_cons, List.map_cons, List.sum_cons, ih, hμ]
      omega

/-- The accumulation fold does not move a row off its key. -/
theorem key_foldl_add (hkey : ∀ s r, key (add s r) = key s)
    (s : ρ) (l : List ρ) : key (l.foldl add s) = key s := by
  induction l generalizing s with
  | nil => rfl
  | cons x xs ih => simp only [List.foldl_cons, ih, hkey]

/-- Counters never decrease: a row present before a batch is still present
afterwards, and any additive measure of it has not shrunk. -/
theorem lookupKey_applyRows_mono (hkey : ∀ s r, key (add s r) = key s)
    (μ : ρ → Nat) (hμ : ∀ s r, μ s ≤ μ (add s r))
    (t : List ρ) (rows : List ρ) (k : κ) (s : ρ)
    (h : lookupKey key t k = some s) :
    ∃ s', lookupKey key (applyRows key add t rows) k = some s' ∧ μ s ≤ μ s' := by
  have aux : ∀ (l : List ρ) (s : ρ), μ s ≤ μ (l.foldl add s) := by
    intro l
    induction l with
    | nil => intro s; simp
    | cons x xs ih => intro s; exact le_trans (hμ s x) (ih (add s x))
  rw [lookupKey_applyRows key add hkey, h]
  exact ⟨_, rfl, aux _ s⟩

/-- Every key present after a batch was present before or occurs in the batch. -/
theorem key_mem_applyRows (hkey : ∀ s r, key (add s r) = key s)
    (t : List ρ) (rows : List ρ) (b : ρ) (hb : b ∈ applyRows key add t rows) :
    (∃ s ∈ t, key b = key s) ∨ (∃ r ∈ rows, key b = key r) := by
  induction rows generalizing t with
  | nil => exact Or.inl ⟨b, hb, rfl⟩
  | cons r rs ih =>
      rcases ih (upsertRow key add t r) hb with ⟨s, hs, hk⟩ | ⟨r', hr', hk⟩
      · rcases key_mem_upsertRow key add hkey t r s hs with ⟨s', hs', hk'⟩ | hk'
        · exact Or.inl ⟨s', hs', by rw [hk, hk']⟩
        · exact Or.inr ⟨r, List.mem_cons_self r rs, by rw [hk, hk']⟩
      · exact Or.inr ⟨r', List.mem_cons_of_mem r hr', hk⟩

/-- Under key uniqueness, two rows found at the same key are one row. -/
theorem nodupKeys_unique_pred (t : List ρ) (h : NodupKeys key t) (k : κ) :
    ∀ a ∈ t, ∀ b ∈ t, decide (key a = k) = true → decide (key b = k) = true → a = b := by
  intro a ha b hb hpa hpb
  have hka := of_decide_eq_true hpa
  have hkb := of_decide_eq_true hpb
  by_cases hab : a = b
  · exact hab
  · have hsym : Symmetric (fun x y : ρ => key x ≠ key y) := fun x y hxy hc => hxy hc.symm
    exact absurd (hka.trans hkb.symm) (List.Pairwise.forall hsym h ha hb hab)

/-- Under key uniqueness the rows matching a key form exactly the optional
looked-up row. -/
theorem filter_key_eq_lookup (t : List ρ) (h : NodupKeys key t) (k : κ) :
    t.filter (fun s => decide (key s = k)) = (lookupKey key t k).toList := by
  induction t with
  | nil => rfl
  | cons s rest ih =>
      rcases List.pairwise_cons.mp h with ⟨hs, hrest⟩
      by_cases hsk : key s = k
      · rw [List.filter_cons, if_pos (decide_eq_true hsk), lookupKey_cons, if_pos hsk]
        have hempty : rest.filter (fun s => decide (key s = k)) = [] := by
          rw [List.filter_eq_nil_iff]
          intro b hb
          simp only [decide_eq_true_eq]
          intro hc
          exact (hs b hb) (by rw [hsk, hc])
        rw [hempty]
        rfl
      · rw [List.filter_cons, if_neg (by simp [hsk]), lookupKey_cons, if_neg hsk]
        exact ih hrest

/-- `find?` is determined by membership once at most one element can match. -/
theorem find?_eq_some_of_unique (p : α → Bool) (l : List α) (x : α)
    (hx : x ∈ l) (hpx : p x) (huniq : ∀ a ∈ l, ∀ b ∈ l, p a → p b → a = b) :
    l.find? p = some x := by
  have hsome : (l.find? p).isSome := List.find?_isSome.mpr ⟨x, hx, hpx⟩
  rcases Option.isSome_iff_exists.mp hsome with ⟨y, hy⟩
  rw [hy]
  have hyx : y = x :=
    huniq y (List.mem_of_find?_eq_some hy) x hx (List.find?_some hy) hpx
  rw [hyx]

/-- `find?` only looks at the predicate's values on the list. -/
theorem find?_congr_mem (p q : α → Bool) (l : List α) (h : ∀ x ∈ l, p x = q x) :
    l.find? p = l.find? q := by
  induction l with
  | nil => rfl
  | cons x xs ih =>
      have hx := h x (List.mem_cons_self _ _)
      by_cases hp : p x = true
      · rw [List.find?_cons_of_pos _ hp, List.find?_cons_of_pos _ (hx ▸ hp)]
      · rw [List.find?_cons_of_neg _ hp, List.find?_cons_of_neg _ (hx ▸ hp)]
        exact ih (fun y hy => h y (List.mem_cons_of_mem x hy))

/-- A permutation does not change `find?` results when at most one element
satisfies the predicate. -/
theorem find?_perm_of_unique (p : α → Bool) (l l' : List α) (hperm : l.Perm l')
    (huniq : ∀ a ∈ l, ∀ b ∈ l, p a → p b → a = b) :
    l.find? p = l'.find? p := by
  cases h : l.find? p with
  | some x =>
      exact (find?_eq_some_of_unique p l' x (hperm.mem_iff.mp (List.mem_of_find?_eq_some h))
        (List.find?_some h) (fun a ha b hb => huniq a (hperm.mem_iff.mpr ha) b (hperm.mem_iff.mpr hb))).symm
  | none =>
      rw [List.find?_eq_none] at h
      symm
      rw [List.find?_eq_none]
      exact fun x hx => h x (hperm.mem_iff.mpr hx)

end Upsert

section Comparators

/-- Model of JavaScript string comparison at the character level: compare
code points. -/
def charCmp (a b : Char) : Ordering :=
  if a.toNat < b.toNat then .lt else if b.toNat < a.toNat then .gt else .eq

/-- Lexicographic comparison of lists under an element comparator. -/
def lexCmpBy (c : α → α → Ordering) : List α → List α → Ordering
  | [], [] => .eq
  | [], _ :: _ => .lt
  | _ :: _, [] => .gt
  | a :: as, b :: bs => (c a b).then (lexCmpBy c as bs)

/-- Model of `localeCompare`, as code-point lexicographic order. -/
def strCmp (a b : String) : Ordering := lexCmpBy charCmp a.data b.data

theorem then_eq_lt (o₁ o₂ : Ordering) :
    o₁.then o₂ = .lt ↔ (o₁ = .lt ∨ (o₁ = .eq ∧ o₂ = .lt)) := by
  cases o₁ <;> cases o₂ <;> decide

theorem then_eq_gt (o₁ o₂ : Ordering) :
    o₁.then o₂ = .gt ↔ (o₁ = .gt ∨ (o₁ = .eq ∧ o₂ = .gt)) := by
  cases o₁ <;> cases o₂ <;> decide

theorem then_eq_eq (o₁ o₂ : Ordering) :
    o₁.then o₂ = .eq ↔ (o₁ = .eq ∧ o₂ = .eq) := by
  cases o₁ <;> cases o₂ <;> decide

theorem then_eq_right (o : Ordering) : o.then .eq = o := by cases o <;> rfl

theorem ordering_ne_gt (o : Ordering) : o ≠ .gt ↔ (o = .lt ∨ o = .eq) := by
  cases o <;> decide

theorem charCmp_eq_iff (a b : Char) : charCmp a b = .eq ↔ a = b := by
  unfold charCmp
  constructor
  · intro h
    split at h
    · exact absurd h (by decide)
    · split at h
      · exact absurd h (by decide)
      · rename_i h1 h2
        have h3 : a.toNat = b.toNat := by omega
        exact Char.ext (UInt32.ext h3)
  · intro h
    rw [h]
    simp

theorem charCmp_gt_iff (a b : Char) : charCmp a b = .gt ↔ charCmp b a = .lt := by
  unfold charCmp
  rcases Nat.lt_trichotomy a.toNat b.toNat with h | h | h
  · simp [h, Nat.lt_asymm h]
  · simp [h, Nat.lt_irrefl]
  · simp [h, Nat.lt_asymm h]

theorem charCmp_lt_trans (a b c : Char)
    (h₁ : charCmp a b = .lt) (h₂ : charCmp b c = .lt) : charCmp a c = .lt := by
  unfold charCmp at *
  split at h₁
  · split at h₂
    · rename_i hab hbc
      rw [if_pos (Nat.lt_trans hab hbc)]
    · split at h₂ <;> simp_all
  · split at h₁ <;> simp_all

section LexCmp

variable {α : Type} (c : α → α → Ordering)

theorem lexCmpBy_eq_iff (hEq : ∀ x y, c x y = .eq ↔ x = y)
    (l₁ l₂ : List α) : lexCmpBy c l₁ l₂ = .eq ↔ l₁ = l₂ := by
  induction l₁ generalizing l₂ with
  | nil => cases l₂ <;> simp [lexCmpBy]
  | cons a as ih =>
      cases l₂ with
      | nil => simp [lexCmpBy]
      | cons b bs =>
          simp only [lexCmpBy, then_eq_eq, hEq, ih, List.cons.injEq]

theorem lexCmpBy_gt_iff (hEq : ∀ x y, c x y = .eq ↔ x = y)
    (hGt : ∀ x y, c x y = .gt ↔ c y x = .lt) (l₁ l₂ : List α) :
    lexCmpBy c l₁ l₂ = .gt ↔ lexCmpBy c l₂ l₁ = .lt := by
  induction l₁ generalizing l₂ with
  | nil => cases l₂ <;> simp [lexCmpBy]
  | cons a as ih =>
      cases l₂ with
      | nil => simp [lexCmpBy]
      | cons b bs =>
          have hab : c a b = .eq ↔ c b a = .eq := by
            rw [hEq, hEq]
            exact eq_comm
          simp only [lexCmpBy, then_eq_gt, then_eq_lt]
          constructor
          · rintro (h | ⟨h1, h2⟩)
            · exact Or.inl ((hGt a b).mp h)
            · exact Or.inr ⟨hab.mp h1, (ih bs).mp h2⟩
          · rintro (h | ⟨h1, h2⟩)
            · exact Or.inl ((hGt a b).mpr h)
            · exact Or.inr ⟨hab.mpr h1, (ih bs).mpr h2⟩

theorem lexCmpBy_lt_trans (hEq : ∀ x y, c x y = .eq ↔ x = y)
    (hLtTrans : ∀ x y z, c x y = .lt → c y z = .lt → c x z = .lt)
    (l₁ l₂ l₃ : List α)
    (h₁ : lexCmpBy c l₁ l₂ = .lt) (h₂ : lexCmpBy c l₂ l₃ = .lt) :
    lexCmpBy c l₁ l₃ = .lt := by
  induction l₁ generalizing l₂ l₃ with
  | nil =>
      cases l₂ with
      | nil => exact h₂
      | cons b bs => cases l₃ with
        | nil => simp [lexCmpBy] at h₂
        | cons d ds => simp [lexCmpBy]
  | cons a as ih =>
      cases l₂ with
      | nil => simp [lexCmpBy] at h₁
      | cons b bs =>
          cases l₃ with
          | nil => simp [lexCmpBy] at h₂
          | cons d ds =>
              simp only [lexCmpBy, then_eq_lt] at h₁ h₂ ⊢
              rcases h₁ with h₁ | ⟨h₁e, h₁r⟩
              · rcases h₂ with h₂ | ⟨h₂e, h₂r⟩
                · exact Or.inl (hLtTrans a b d h₁ h₂)
                · rw [hEq] at h₂e
                  rw [← h₂e]
                  exact Or.inl h₁
              · rw [hEq] at h₁e
                rcases h₂ with h₂ | ⟨h₂e, h₂r⟩
                · rw [h₁e]
                  exact Or.inl h₂
                · rw [hEq] at h₂e
                  exact Or.inr ⟨by rw [hEq, h₁e, h₂e], ih bs ds h₁r h₂r⟩

end LexCmp

theorem strCmp_eq_iff (a b : String) : strCmp a b = .eq ↔ a = b := by
  unfold strCmp
  rw [lexCmpBy_eq_iff charCmp charCmp_eq_iff]
  constructor
  · exact String.ext
  · intro h; rw [h]

theorem strCmp_gt_iff (a b : String) : strCmp a b = .gt ↔ strCmp b a = .lt :=
  lexCmpBy_gt_iff charCmp charCmp_eq_iff charCmp_gt_iff a.data b.data

theorem strCmp_lt_trans (a b c : String)
    (h₁ : strCmp a b = .lt) (h₂ : strCmp b c = .lt) : strCmp a c = .lt :=
  lexCmpBy_lt_trans charCmp charCmp_eq_iff charCmp_lt_trans a.data b.data c.data h₁ h₂

section Sorting

variable {α : Type} (cmp : α → α → Ordering)

/-- Stable insertion used to model `Array.prototype.sort` with a comparator
(ECMAScript sorts are stable). -/
def insertSorted (x : α) : List α → List α
  | [] => [x]
  | y :: ys => if cmp x y = .gt then y :: insertSorted x ys else x :: y :: ys

/-- Stable sort by a JavaScript comparator. -/
def sortByCmp (l : List α) : List α := l.foldr (insertSorted cmp) []

/-- A list is sorted for a comparator when no element compares greater than a
later one. -/
def SortedBy (l : List α) : Prop := l.Pairwise (fun a b => cmp a b ≠ .gt)

theorem insertSorted_perm (x : α) (l : List α) :
    (insertSorted cmp x l).Perm (x :: l) := by
  induction l with
  | nil => exact List.Perm.refl _
  | cons y ys ih =>
      unfold insertSorted
      by_cases h : cmp x y = .gt
      · rw [if_pos h]
        exact (ih.cons y).trans (List.Perm.swap x y ys)
      · rw [if_neg h]

theorem sortByCmp_perm (l : List α) : (sortByCmp cmp l).Perm l := by
  induction l with
  | nil => exact List.Perm.refl _
  | cons x xs ih =>
      exact (insertSorted_perm cmp x (sortByCmp cmp xs)).trans (ih.cons x)

theorem mem_sortByCmp (l : List α) (x : α) : x ∈ sortByCmp cmp l ↔ x ∈ l :=
  (sortByCmp_perm cmp l).mem_iff

theorem insertSorted_sorted
    (htot : ∀ a b, cmp a b = .gt → cmp b a ≠ .gt)
    (htrans : ∀ a b c, cmp a b ≠ .gt → cmp b c ≠ .gt → cmp a c ≠ .gt)
    (x : α) (l : List α) (h : SortedBy cmp l) :
    SortedBy cmp (insertSorted cmp x l) := by
  induction l with
  | nil => simp [insertSorted, SortedBy]
  | cons y ys ih =>
      rcases List.pairwise_cons.mp h with ⟨hy, hys⟩
      unfold insertSorted
      by_cases hxy : cmp x y = .gt
      · rw [if_pos hxy]
        refine List.pairwise_cons.mpr ⟨?_, ih hys⟩
        intro z hz
        rcases List.mem_cons.mp ((insertSorted_perm cmp x ys).mem_iff.mp hz) with hzx | hzys
        · rw [hzx]
          exact htot x y hxy
        · exact hy z hzys
      · rw [if_neg hxy]
        refine List.pairwise_cons.mpr ⟨?_, h⟩
        intro z hz
        rcases List.mem_cons.mp hz with hzy | hzys
        · rw [hzy]; exact hxy
        · exact htrans x y z hxy (hy z hzys)

theorem sortByCmp_sorted
    (htot : ∀ a b, cmp a b = .gt → cmp b a ≠ .gt)
    (htrans : ∀ a b c, cmp a b ≠ .gt → cmp b c ≠ .gt → cmp a c ≠ .gt)
    (l : List α) : SortedBy cmp (sortByCmp cmp l) := by
  induction l with
  | nil => simp [sortByCmp, SortedBy]
  | cons x xs ih => exact insertSorted_sorted cmp htot htrans x _ ih

end Sorting

theorem lexStr_gt_asymm (l₁ l₂ : List String) :
    lexCmpBy strCmp l₁ l₂ = .gt → lexCmpBy strCmp l₂ l₁ ≠ .gt := by
  intro h hc
  rw [lexCmpBy_gt_iff strCmp strCmp_eq_iff strCmp_gt_iff] at h
  exact absurd (h.symm.trans hc) (by decide)

theorem lexStr_le_trans (l₁ l₂ l₃ : List String)
    (h₁ : lexCmpBy strCmp l₁ l₂ ≠ .gt) (h₂ : lexCmpBy strCmp l₂ l₃ ≠ .gt) :
    lexCmpBy strCmp l₁ l₃ ≠ .gt := by
  rw [ordering_ne_gt] at h₁ h₂ ⊢
  rcases h₁ with h₁ | h₁ <;> rcases h₂ with h₂ | h₂
  · exact Or.inl (lexCmpBy_lt_trans strCmp strCmp_eq_iff strCmp_lt_trans _ _ _ h₁ h₂)
  · rw [lexCmpBy_eq_iff strCmp strCmp_eq_iff] at h₂
    rw [← h₂]
    exact Or.inl h₁
  · rw [lexCmpBy_eq_iff strCmp strCmp_eq_iff] at h₁
    rw [h₁]
    exact Or.inl h₂
  · rw [lexCmpBy_eq_iff strCmp strCmp_eq_iff] at h₁ h₂
    rw [h₁, h₂]
    exact Or.inr (by rw [lexCmpBy_eq_iff strCmp strCmp_eq_iff])

/-- The comparator passed to `rows.sort` in `batchInsertMetrics`:
`a.feature_name.localeCompare(b.feature_name) || a.app_name.localeCompare(b.app_name) || a.environment.localeCompare(b.environment)`. -/
def hourlySortCmp (a b : ClientMetricsEnvTable) : Ordering :=
  (strCmp a.feature_name b.feature_name).then
    ((strCmp a.app_name b.app_name).then (strCmp a.environment b.environment))

/-- The comparator passed to `variantRows.sort` in `batchInsertMetrics`: the
hourly comparator extended with `a.variant.localeCompare(b.variant)`. -/
def variantSortCmp (a b : ClientMetricsEnvVariantTable) : Ordering :=
  (strCmp a.feature_name b.feature_name).then
    ((strCmp a.app_name b.app_name).then
      ((strCmp a.environment b.environment).then (strCmp a.variant b.variant)))

/-- The comparator passed to `rows.sort` in `batchInsertTotalMetrics`:
`a.feature_name.localeCompare(b.feature_name) || a.environment.localeCompare(b.environment)`. -/
def totalSortCmp (a b : ClientMetricsTotalTable) : Ordering :=
  (strCmp a.feature_name b.feature_name).then (strCmp a.environment b.environment)

theorem hourlySortCmp_eq (a b : ClientMetricsEnvTable) :
    hourlySortCmp a b =
      lexCmpBy strCmp [a.feature_name, a.app_name, a.environment]
        [b.feature_name, b.app_name, b.environment] := by
  simp [hourlySortCmp, lexCmpBy, then_eq_right]

theorem variantSortCmp_eq (a b : ClientMetricsEnvVariantTable) :
    variantSortCmp a b =
      lexCmpBy strCmp [a.feature_name, a.app_name, a.environment, a.variant]
        [b.feature_name, b.app_name, b.environment, b.variant] := by
  simp [variantSortCmp, lexCmpBy, then_eq_right]

theorem totalSortCmp_eq (a b : ClientMetricsTotalTable) :
    totalSortCmp a b =
      lexCmpBy strCmp [a.feature_name, a.environment]
        [b.feature_name, b.environment] := by
  simp [totalSortCmp, lexCmpBy, then_eq_right]

theorem hourlySortCmp_asymm (a b : ClientMetricsEnvTable) :
    hourlySortCmp a b = .gt → hourlySortCmp b a ≠ .gt := by
  rw [hourlySortCmp_eq, hourlySortCmp_eq]
  exact lexStr_gt_asymm _ _

theorem hourlySortCmp_le_trans (a b c : ClientMetricsEnvTable) :
    hourlySortCmp a b ≠ .gt → hourlySortCmp b c ≠ .gt → hourlySortCmp a c ≠ .gt := by
  rw [hourlySortCmp_eq, hourlySortCmp_eq, hourlySortCmp_eq]
  exact lexStr_le_trans _ _ _

theorem variantSortCmp_asymm (a b : ClientMetricsEnvVariantTable) :
    variantSortCmp a b = .gt → variantSortCmp b a ≠ .gt := by
  rw [variantSortCmp_eq, variantSortCmp_eq]
  exact lexStr_gt_asymm _ _

theorem variantSortCmp_le_trans (a b c : ClientMetricsEnvVariantTable) :
    variantSortCmp a b ≠ .gt → variantSortCmp b c ≠ .gt → variantSortCmp a c ≠ .gt := by
  rw [variantSortCmp_eq, variantSortCmp_eq, variantSortCmp_eq]
  exact lexStr_le_trans _ _ _

theorem totalSortCmp_asymm (a b : ClientMetricsTotalTable) :
    totalSortCmp a b = .gt → totalSortCmp b a ≠ .gt := by
  rw [totalSortCmp_eq, totalSortCmp_eq]
  exact lexStr_gt_asymm _ _

theorem totalSortCmp_le_trans (a b c : ClientMetricsTotalTable) :
    totalSortCmp a b ≠ .gt → totalSortCmp b c ≠ .gt → totalSortCmp a c ≠ .gt := by
  rw [totalSortCmp_eq, totalSortCmp_eq, totalSortCmp_eq]
  exact lexStr_le_trans _ _ _

end Comparators

section Underscore

/-- Prefix a character onto the first piece of a split result. -/
def splitUScons (c : Char) : List (List Char) → List (List Char)
  | [] => [[c]]
  | p :: ps => (c :: p) :: ps

/-- Model of JavaScript `s.split(sep)` for a one-character separator, at the
character-list level: splitting on every occurrence, keeping empty pieces. -/
def splitUS : List Char → List (List Char)
  | [] => [[]]
  | c :: cs =>
      if c = '_' then [] :: splitUS cs
      else splitUScons c (splitUS cs)

/-- A string piece that does not contain the underscore separator. -/
def USfree (cs : List Char) : Prop := '_' ∉ cs

theorem USfree_of_decide (cs : List Char) (h : decide ('_' ∉ cs) = true) :
    USfree cs :=
  show ('_' ∉ cs) from of_decide_eq_true h

theorem splitUScons_cons (c : Char) (p : List Char) (ps : List (List Char)) :
    splitUScons c (p :: ps) = (c :: p) :: ps := rfl

theorem splitUS_nil : splitUS [] = [[]] := rfl

theorem splitUS_cons (c : Char) (cs : List Char) :
    splitUS (c :: cs) =
      if c = '_' then [] :: splitUS cs else splitUScons c (splitUS cs) := rfl

theorem splitUS_ne_nil (cs : List Char) : splitUS cs ≠ [] := by
  induction cs with
  | nil => simp [splitUS_nil]
  | cons c cs ih =>
      rw [splitUS_cons]
      by_cases h : c = '_'
      · simp [h]
      · rw [if_neg h]
        cases hs : splitUS cs <;> simp [splitUScons]

theorem splitUS_of_USfree (cs : List Char) (h : USfree cs) : splitUS cs = [cs] := by
  induction cs with
  | nil => rfl
  | cons c cs ih =>
      have hc : ¬ (c = '_') := fun hc => h (by rw [hc]; exact List.mem_cons_self _ _)
      have hcs : USfree cs := fun hm => h (List.mem_cons_of_mem c hm)
      rw [splitUS_cons, if_neg hc, ih hcs, splitUScons_cons]

theorem splitUS_append (a b : List Char) (ha : USfree a) :
    splitUS (a ++ '_' :: b) = a :: splitUS b := by
  induction a with
  | nil => simp [splitUS_cons]
  | cons c cs ih =>
      have hc : ¬ (c = '_') := fun hc => ha (by rw [hc]; exact List.mem_cons_self _ _)
      have hcs : USfree cs := fun hm => ha (List.mem_cons_of_mem c hm)
      rw [List.cons_append, splitUS_cons, if_neg hc, ih hcs, splitUScons_cons]

/-- Cancellation of a separator-joined pair with an underscore-free first
component. -/
theorem us_join_inj (a₁ b₁ a₂ b₂ : List Char) (h₁ : USfree a₁) (h₂ : USfree a₂)
    (h : a₁ ++ '_' :: b₁ = a₂ ++ '_' :: b₂) : a₁ = a₂ ∧ b₁ = b₂ := by
  have hs : splitUS (a₁ ++ '_' :: b₁) = splitUS (a₂ ++ '_' :: b₂) := by rw [h]
  rw [splitUS_append a₁ b₁ h₁, splitUS_append a₂ b₂ h₂] at hs
  have ha : a₁ = a₂ := (List.cons.inj hs).1
  refine ⟨ha, ?_⟩
  rw [ha] at h
  exact (List.cons.inj (List.append_cancel_left h)).2

/-- Decimal digit characters, as JavaScript renders numbers. -/
def digitToChar (d : Nat) : Char :=
  if d = 0 then '0' else if d = 1 then '1' else if d = 2 then '2'
  else if d = 3 then '3' else if d = 4 then '4' else if d = 5 then '5'
  else if d = 6 then '6' else if d = 7 then '7' else if d = 8 then '8' else '9'

/-- Little-endian decimal digits with explicit fuel (so that the definition
is structurally recursive and kernel-reducible). -/
def toDigitsRev (fuel n : Nat) : List Char :=
  match fuel with
  | 0 => []
  | f + 1 => if n = 0 then [] else digitToChar (n % 10) :: toDigitsRev f (n / 10)

/-- Model of the decimal rendering a JavaScript template literal performs on
a number (and, for the stored hour timestamps, of the injective rendering of
a `Date`). -/
def numStr (n : Nat) : List Char := if n = 0 then ['0'] else (toDigitsRev n n).reverse

theorem toDigitsRev_eq_digits (fuel n : Nat) (h : n ≤ fuel) :
    toDigitsRev fuel n = (Nat.digits 10 n).map digitToChar := by
  induction fuel generalizing n with
  | zero =>
      have hz : n = 0 := Nat.le_zero.mp h
      rw [hz]
      simp [toDigitsRev]
  | succ f ih =>
      unfold toDigitsRev
      by_cases hn : n = 0
      · simp [hn]
      · rw [if_neg hn, Nat.digits_def' (by norm_num) (Nat.pos_of_ne_zero hn), List.map_cons]
        rw [ih (n / 10) ?_]
        omega

theorem digitToChar_ne_us (d : Nat) : digitToChar d ≠ '_' := by
  unfold digitToChar
  repeat' split
  all_goals decide

theorem digitToChar_inj (d₁ d₂ : Nat) (h₁ : d₁ < 10) (h₂ : d₂ < 10)
    (h : digitToChar d₁ = digitToChar d₂) : d₁ = d₂ := by
  interval_cases d₁ <;> interval_cases d₂ <;> first | rfl | exact absurd h (by decide)

theorem numStr_USfree (n : Nat) : USfree (numStr n) := by
  unfold numStr
  by_cases hn : n = 0
  · rw [if_pos hn]
    intro hm
    simp at hm
  · rw [if_neg hn, toDigitsRev_eq_digits n n le_rfl]
    intro hm
    rw [List.mem_reverse] at hm
    rcases List.mem_map.mp hm with ⟨d, _, hd⟩
    exact digitToChar_ne_us d hd

theorem map_digitToChar_inj (l₁ l₂ : List Nat)
    (h₁ : ∀ d ∈ l₁, d < 10) (h₂ : ∀ d ∈ l₂, d < 10)
    (h : l₁.map digitToChar = l₂.map digitToChar) : l₁ = l₂ := by
  induction l₁ generalizing l₂ with
  | nil =>
      cases l₂ with
      | nil => rfl
      | cons d ds => exact absurd h (by simp)
  | cons d ds ih =>
      cases l₂ with
      | nil => exact absurd h (by simp)
      | cons d' ds' =>
          simp only [List.map_cons, List.cons.injEq] at h
          have hd : d = d' :=
            digitToChar_inj d d' (h₁ d (List.mem_cons_self _ _))
              (h₂ d' (List.mem_cons_self _ _)) h.1
          rw [hd, ih ds' (fun x hx => h₁ x (List.mem_cons_of_mem d hx))
            (fun x hx => h₂ x (List.mem_cons_of_mem d' hx)) h.2]

theorem digits_eq_zero_list (m : Nat) (h : Nat.digits 10 m = [0]) : m = 0 := by
  have := Nat.ofDigits_digits 10 m
  rw [h] at this
  simpa [Nat.ofDigits] using this.symm

theorem numStr_inj (n m : Nat) (h : numStr n = numStr m) : n = m := by
  unfold numStr at h
  by_cases hn : n = 0 <;> by_cases hm : m = 0
  · rw [hn, hm]
  · rw [if_pos hn, if_neg hm, toDigitsRev_eq_digits m m le_rfl] at h
    have h' : (Nat.digits 10 m).map digitToChar = ['0'] := by
      have := congrArg List.reverse h
      simpa using this.symm
    have hdg : Nat.digits 10 m = [0] :=
      map_digitToChar_inj _ [0] (fun d hd => Nat.digits_lt_base (by norm_num) hd)
        (by intro d hd; simp at hd; omega) (by rw [h']; rfl)
    exact absurd (digits_eq_zero_list m hdg) hm
  · rw [if_neg hn, if_pos hm, toDigitsRev_eq_digits n n le_rfl] at h
    have h' : (Nat.digits 10 n).map digitToChar = ['0'] := by
      have := congrArg List.reverse h
      simpa using this
    have hdg : Nat.digits 10 n = [0] :=
      map_digitToChar_inj _ [0] (fun d hd => Nat.digits_lt_base (by norm_num) hd)
        (by intro d hd; simp at hd; omega) (by rw [h']; rfl)
    exact absurd (digits_eq_zero_list n hdg) hn
  · rw [if_neg hn, if_neg hm, toDigitsRev_eq_digits n n le_rfl,
       toDigitsRev_eq_digits m m le_rfl] at h
    have hrev := congrArg List.reverse h
    rw [List.reverse_reverse, List.reverse_reverse] at hrev
    have hdig : Nat.digits 10 n = Nat.digits 10 m :=
      map_digitToChar_inj _ _ (fun d hd => Nat.digits_lt_base (by norm_num) hd)
        (fun d hd => Nat.digits_lt_base (by norm_num) hd) hrev
    calc n = Nat.ofDigits 10 (Nat.digits 10 n) := (Nat.ofDigits_digits 10 n).symm
    _ = Nat.ofDigits 10 (Nat.digits 10 m) := by rw [hdig]
    _ = m := Nat.ofDigits_digits 10 m

end Underscore

section Pipeline

/-- Primary key of `client_metrics_env`, per the `ON CONFLICT (feature_name,
app_name, environment, timestamp)` clause of the insert issued by
`batchInsertMetrics`. -/
def envTableKey (r : ClientMetricsEnvTable) : String × String × String × Nat :=
  (r.feature_name, r.app_name, r.environment, r.timestamp)

/-- Conflict action of the hourly insert: `yes = stored.yes + EXCLUDED.yes`,
`no = stored.no + EXCLUDED.no`. -/
def envTableAdd (stored incoming : ClientMetricsEnvTable) : ClientMetricsEnvTable :=
  { stored with yes := stored.yes + incoming.yes, no := stored.no + incoming.no }

/-- Primary key of `client_metrics_env_variants`, per its `ON CONFLICT`
clause. -/
def variantTableKey (r : ClientMetricsEnvVariantTable) :
    String × String × String × Nat × String :=
  (r.feature_name, r.app_name, r.environment, r.timestamp, r.variant)

/-- Conflict action of the variant insert:
`count = stored.count + EXCLUDED.count`. -/
def variantTableAdd (stored incoming : ClientMetricsEnvVariantTable) :
    ClientMetricsEnvVariantTable :=
  { stored with count := stored.count + incoming.count }

/-- Primary key of `client_metrics_total`, per its `ON CONFLICT` clause. -/
def totalTableKey (r : ClientMetricsTotalTable) : String × String :=
  (r.feature_name, r.environment)

/-- Conflict action of the total insert:
`total = stored.total + EXCLUDED.total`. -/
def totalTableAdd (stored incoming : ClientMetricsTotalTable) : ClientMetricsTotalTable :=
  { stored with total := stored.total + incoming.total }

/-- Modelled from the spec: compaction key of §4.1 — feature, app, environment
and the containing hour. -/
def metricKey (m : IClientMetricsEnv) : String × String × String × Nat :=
  (m.featureName, m.appName, m.environment, startOfHour m.timestamp)

/-- Modelled from the spec: compaction accumulation of §4.1 — sum `yes` and
`no`. -/
def metricAdd (stored incoming : IClientMetricsEnv) : IClientMetricsEnv :=
  { stored with yes := stored.yes + incoming.yes, no := stored.no + incoming.no }

/-- Modelled from the spec: §4.1 floors an event into its hour bucket (the
variants are dropped: compaction feeds `toRow`, which never reads them). -/
def floorEv (m : IClientMetricsEnv) : IClientMetricsEnv :=
  { m with timestamp := startOfHour m.timestamp, variants := [] }

/-- Modelled from the spec: `collapseHourlyMetrics` is imported from
`util/collapseHourlyMetrics`, which is not part of the sources at hand.
Following §4.1 of the spec, each event timestamp is floored to its containing
hour and events sharing a (featureName, appName, environment, hourTimestamp)
tuple are merged, summing `yes` and `no`; the output carries one event per
tuple, in first-occurrence order. -/
def collapseHourlyMetrics (metrics : List IClientMetricsEnv) : List IClientMetricsEnv :=
  applyRows metricKey metricAdd [] (metrics.map floorEv)

/-- Modelled from the spec: spreading key of §4.2 — feature, app, environment,
containing hour, variant name. -/
def variantMetricKey (v : IClientMetricsEnvVariant) :
    String × String × String × Nat × String :=
  (v.featureName, v.appName, v.environment, startOfHour v.timestamp, v.variant)

/-- Modelled from the spec: spreading accumulation of §4.2 — sum `count`. -/
def variantMetricAdd (stored incoming : IClientMetricsEnvVariant) :
    IClientMetricsEnvVariant :=
  { stored with count := stored.count + incoming.count }

/-- Modelled from the spec: one §4.2 spread row — an event's single variant
entry, hour-floored. -/
def spreadRow (m : IClientMetricsEnv) (p : String × Nat) : IClientMetricsEnvVariant :=
  { featureName := m.featureName
    appName := m.appName
    environment := m.environment
    timestamp := startOfHour m.timestamp
    variant := p.1
    count := p.2 }

/-- Modelled from the spec: `spreadVariants` is imported from
`util/collapseHourlyMetrics`, which is not part of the sources at hand.
Following §4.2 of the spec, each event's variant mapping is expanded into one
row per (featureName, appName, environment, hourTimestamp, variantName) with
`count` summed across the input events sharing the tuple; events without
variants contribute no rows. -/
def spreadVariants (metrics : List IClientMetricsEnv) : List IClientMetricsEnvVariant :=
  applyRows variantMetricKey variantMetricAdd []
    (metrics.flatMap fun m => m.variants.map (spreadRow m))

/-- The hourly rows `batchInsertMetrics` submits: collapsed metrics through
`toRow`, sorted with the deadlock-avoidance comparator. -/
def sortedHourlyRows (metrics : List IClientMetricsEnv) : List ClientMetricsEnvTable :=
  sortByCmp hourlySortCmp ((collapseHourlyMetrics metrics).map toRow)

/-- The variant rows `batchInsertMetrics` submits: spread variants through
`toVariantRow`, sorted with the deadlock-avoidance comparator. -/
def sortedVariantRows (metrics : List IClientMetricsEnv) : List ClientMetricsEnvVariantTable :=
  sortByCmp variantSortCmp ((spreadVariants metrics).map toVariantRow)

/-- One aggregation entry of `batchInsertTotalMetrics`: the underscore-joined
string key with the event's `yes + no`. -/
def entryOf (m : IClientMetricsEnv) : String × Nat :=
  (m.featureName ++ "_" ++ m.environment, m.yes + m.no)

/-- `aggregatedMetrics[key] += yes + no`. -/
def entryAdd (stored incoming : String × Nat) : String × Nat :=
  (stored.1, stored.2 + incoming.2)

/-- The in-memory aggregation of `batchInsertTotalMetrics`: an
insertion-ordered mapping from the string key
`featureName + '_' + environment` to the accumulated `yes + no`. -/
def totalAggregate (metrics : List IClientMetricsEnv) : List (String × Nat) :=
  applyRows Prod.fst entryAdd [] (metrics.map entryOf)

/-- Row construction in `batchInsertTotalMetrics`: split the aggregation key
back on underscores and take the first two pieces, as
`const [featureName, environment] = key.split(sep)` does. -/
def totalRowOfEntry (p : String × Nat) : ClientMetricsTotalTable :=
  { feature_name := String.mk ((splitUS p.1.data).headD [])
    environment := String.mk (((splitUS p.1.data).drop 1).headD [])
    total := p.2 }

/-- The rows `batchInsertTotalMetrics` submits, sorted by
(feature_name, environment). -/
def sortedTotalRows (metrics : List IClientMetricsEnv) : List ClientMetricsTotalTable :=
  sortByCmp totalSortCmp ((totalAggregate metrics).map totalRowOfEntry)

/-- The three persisted tables owned by the metrics store. -/
structure Store where
  client_metrics_env : List ClientMetricsEnvTable
  client_metrics_env_variants : List ClientMetricsEnvVariantTable
  client_metrics_total : List ClientMetricsTotalTable
  deriving DecidableEq, Repr

/-- The store before anything is written. -/
def emptyStore : Store := ⟨[], [], []⟩

/-- One SQL statement issued by the batch writers. -/
inductive DbOp where
  | insertEnvRows (rows : List ClientMetricsEnvTable)
  | insertVariantRows (rows : List ClientMetricsEnvVariantTable)
  | insertTotalRows (rows : List ClientMetricsTotalTable)
  deriving DecidableEq, Repr

/-- Effect of one statement on the store: the insert-or-accumulate fold of its
`ON CONFLICT ... DO UPDATE` clause over the targeted table. -/
def applyDbOp (s : Store) : DbOp → Store
  | .insertEnvRows rows =>
      { s with client_metrics_env := applyRows envTableKey envTableAdd s.client_metrics_env rows }
  | .insertVariantRows rows =>
      { s with client_metrics_env_variants :=
          applyRows variantTableKey variantTableAdd s.client_metrics_env_variants rows }
  | .insertTotalRows rows =>
      { s with client_metrics_total :=
          applyRows totalTableKey totalTableAdd s.client_metrics_total rows }

/-- Effect of a statement sequence. -/
def applyDbOps (s : Store) (ops : List DbOp) : Store := ops.foldl applyDbOp s

/-- The statements `batchInsertMetrics` issues.  A null/undefined or empty
batch returns before touching the database; the variant insert is issued only
when there is at least one variant row. -/
def batchInsertMetricsOps (metrics : Option (List IClientMetricsEnv)) : List DbOp :=
  match metrics with
  | none => []
  | some ms =>
      if ms.length = 0 then []
      else
        DbOp.insertEnvRows (sortedHourlyRows ms) ::
          (if (sortedVariantRows ms).length > 0 then
            [DbOp.insertVariantRows (sortedVariantRows ms)]
          else [])

/-- `batchInsertMetrics` as a state transformer on the store. -/
def batchInsertMetrics (s : Store) (metrics : Option (List IClientMetricsEnv)) : Store :=
  applyDbOps s (batchInsertMetricsOps metrics)

/-- The statements `batchInsertTotalMetrics` issues. -/
def batchInsertTotalMetricsOps (metrics : Option (List IClientMetricsEnv)) : List DbOp :=
  match metrics with
  | none => []
  | some ms =>
      if ms.length = 0 then [] else [DbOp.insertTotalRows (sortedTotalRows ms)]

/-- `batchInsertTotalMetrics` as a state transformer on the store. -/
def batchInsertTotalMetrics (s : Store) (metrics : Option (List IClientMetricsEnv)) : Store :=
  applyDbOps s (batchInsertTotalMetricsOps metrics)

/-- The raw SQL window filter `timestamp >= NOW() - INTERVAL hoursBack hours`,
with `now` passed explicitly and times in seconds. -/
def inWindow (now hoursBack ts : Nat) : Bool := decide (now - hoursBack * 3600 ≤ ts)

/-- Point lookup: `get` filters on all four key columns, flooring the key's
timestamp to its hour, and takes the first row; `none` models the thrown
`NotFoundError`. -/
def get (s : Store) (key : IClientMetricsEnvKey) : Option IClientMetricsEnv :=
  (s.client_metrics_env.find? fun r =>
      decide (r.feature_name = key.featureName) && decide (r.app_name = key.appName) &&
      decide (r.environment = key.environment) &&
      decide (r.timestamp = startOfHour key.timestamp)).map fromRow

/-- Existence check: `get` wrapped in try/catch, any failure giving `false`. -/
def exists' (s : Store) (key : IClientMetricsEnvKey) : Bool := (get s key).isSome

/-- `delete`: remove the rows matching the floored key. -/
def deleteKey (s : Store) (key : IClientMetricsEnvKey) : Store :=
  { s with client_metrics_env := s.client_metrics_env.filter fun r =>
      !(decide (r.feature_name = key.featureName) && decide (r.app_name = key.appName) &&
        decide (r.environment = key.environment) &&
        decide (r.timestamp = startOfHour key.timestamp)) }

/-- `deleteAll`: clear the hourly table. -/
def deleteAll (s : Store) : Store := { s with client_metrics_env := [] }

/-- `clearMetrics`: delete the hourly rows with
`timestamp <= NOW() - INTERVAL hoursAgo hours`. -/
def clearMetrics (now hoursAgo : Nat) (s : Store) : Store :=
  { s with client_metrics_env := s.client_metrics_env.filter fun r =>
      !(decide (r.timestamp ≤ now - hoursAgo * 3600)) }

/-- One row of the left join in `getMetricsForFeatureToggle`: the hourly
columns plus the (possibly null) variant columns. -/
structure JoinedRow where
  feature_name : String
  app_name : String
  environment : String
  timestamp : Nat
  yes : Nat
  no : Nat
  variant : Option String
  count : Nat
  deriving DecidableEq, Repr

/-- The join condition of the left join: equality on feature, app,
environment and timestamp. -/
def joinMatch (h : ClientMetricsEnvTable) (v : ClientMetricsEnvVariantTable) : Bool :=
  decide (v.feature_name = h.feature_name) && decide (v.app_name = h.app_name) &&
    decide (v.environment = h.environment) && decide (v.timestamp = h.timestamp)

/-- A join row with null variant columns, for an hour without variant data. -/
def nullJoined (h : ClientMetricsEnvTable) : JoinedRow :=
  { feature_name := h.feature_name, app_name := h.app_name,
    environment := h.environment, timestamp := h.timestamp,
    yes := h.yes, no := h.no, variant := none, count := 0 }

/-- A join row pairing an hourly row with one matching variant row. -/
def joined (h : ClientMetricsEnvTable) (v : ClientMetricsEnvVariantTable) : JoinedRow :=
  { feature_name := h.feature_name, app_name := h.app_name,
    environment := h.environment, timestamp := h.timestamp,
    yes := h.yes, no := h.no, variant := some v.variant, count := v.count }

/-- The join rows one hourly row contributes: one per matching variant row, or
a single null-variant row when none match. -/
def joinGroup (vt : List ClientMetricsEnvVariantTable) (h : ClientMetricsEnvTable) :
    List JoinedRow :=
  let vs := vt.filter (joinMatch h)
  if vs.isEmpty then [nullJoined h] else vs.map (joined h)

/-- The left join: every selected hourly row paired with each matching variant
row, or with null variant columns when none match. -/
def leftJoinRows (hrows : List ClientMetricsEnvTable)
    (vt : List ClientMetricsEnvVariantTable) : List JoinedRow :=
  hrows.flatMap (joinGroup vt)

/-- The underscore-joined grouping key of `variantRowReducer`, with numeric
columns rendered in decimal (concatenation is associative; the nesting is
chosen to follow the separators). -/
def rowKey (row : JoinedRow) : List Char :=
  row.feature_name.data ++ ('_' :: (row.app_name.data ++ ('_' :: (row.environment.data ++
    ('_' :: (numStr row.timestamp ++ ('_' :: (numStr row.yes ++
      ('_' :: numStr row.no)))))))))

/-- `acc[key].variants[variant] = count`: set (or overwrite) one variant's
count in the accumulated mapping. -/
def setVariantCount (l : List (String × Nat)) (v : String) (c : Nat) : List (String × Nat) :=
  if l.any (fun p => decide (p.1 = v)) then
    l.map fun p => if p.1 = v then (p.1, c) else p
  else l ++ [(v, c)]

/-- The fresh accumulator entry `variantRowReducer` creates on first sight of
a key: the hourly columns with an empty variants mapping. -/
def initLogical (row : JoinedRow) : IClientMetricsEnv :=
  { featureName := row.feature_name, appName := row.app_name,
    environment := row.environment, timestamp := row.timestamp,
    yes := row.yes, no := row.no, variants := [] }

/-- Set one variant count on an accumulated record. -/
def addVariantEntry (m : IClientMetricsEnv) (v : String) (c : Nat) : IClientMetricsEnv :=
  { m with variants := setVariantCount m.variants v c }

/-- `variantRowReducer`: group the join rows by the underscore-joined key,
creating the entry on first sight and recording the variant columns when they
are non-null (an empty variant name is falsy in JavaScript and is skipped). -/
def variantRowReducer (acc : List (List Char × IClientMetricsEnv)) (row : JoinedRow) :
    List (List Char × IClientMetricsEnv) :=
  let k := rowKey row
  let acc1 := if acc.any (fun p => decide (p.1 = k)) then acc else acc ++ [(k, initLogical row)]
  match row.variant with
  | some v =>
      if v.length ≠ 0 then
        acc1.map fun p => if p.1 = k then (p.1, addVariantEntry p.2 v row.count) else p
      else acc1
  | none => acc1

/-- The reducer key every join row of one hourly row carries. -/
def hKey (h : ClientMetricsEnvTable) : List Char :=
  h.feature_name.data ++ ('_' :: (h.app_name.data ++ ('_' :: (h.environment.data ++
    ('_' :: (numStr h.timestamp ++ ('_' :: (numStr h.yes ++
      ('_' :: numStr h.no)))))))))

/-- The logical record the left join and reducer are expected to rebuild for
one hourly row: its own columns with the variants mapping of its tuple. -/
def expectedObj (vt : List ClientMetricsEnvVariantTable)
    (h : ClientMetricsEnvTable) : IClientMetricsEnv :=
  { featureName := h.feature_name, appName := h.app_name,
    environment := h.environment, timestamp := h.timestamp,
    yes := h.yes, no := h.no,
    variants := (vt.filter (joinMatch h)).map fun v => (v.variant, v.count) }

/-- `getMetricsForFeatureToggle`: left join the windowed rows of the feature
with their variant rows and rebuild one logical record per reducer key. -/
def getMetricsForFeatureToggle (now : Nat) (s : Store) (featureName : String)
    (hoursBack : Nat) : List IClientMetricsEnv :=
  let rows := leftJoinRows
    (s.client_metrics_env.filter fun r =>
      decide (r.feature_name = featureName) && inWindow now hoursBack r.timestamp)
    s.client_metrics_env_variants
  (rows.foldl variantRowReducer []).map Prod.snd

/-- `getSeenAppsForFeatureToggle`: distinct app names of the feature's
windowed rows, ordered ascending. -/
def getSeenAppsForFeatureToggle (now : Nat) (s : Store) (featureName : String)
    (hoursBack : Nat) : List String :=
  sortByCmp strCmp
    ((s.client_metrics_env.filter fun r =>
        decide (r.feature_name = featureName) && inWindow now hoursBack r.timestamp).map
      (fun r => r.app_name)).dedup

/-- `getSeenTogglesForApp`: distinct feature names of the app's windowed rows,
ordered ascending. -/
def getSeenTogglesForApp (now : Nat) (s : Store) (appName : String)
    (hoursBack : Nat) : List String :=
  sortByCmp strCmp
    ((s.client_metrics_env.filter fun r =>
        decide (r.app_name = appName) && inWindow now hoursBack r.timestamp).map
      (fun r => r.feature_name)).dedup

/-- `getTotalCountForToggle`: the total rows of a feature, one per
environment. -/
def getTotalCountForToggle (s : Store) (featureName : String) : List (String × Nat) :=
  (s.client_metrics_total.filter fun r => decide (r.feature_name = featureName)).map
    fun r => (r.environment, r.total)

/-- The state-changing operations of the pipeline (the reads leave the store
untouched). -/
inductive PipelineOp where
  | insertMetrics (metrics : Option (List IClientMetricsEnv))
  | insertTotalMetrics (metrics : Option (List IClientMetricsEnv))
  | clear (now hoursAgo : Nat)
  | deleteOne (key : IClientMetricsEnvKey)
  | deleteEverything

/-- Effect of one pipeline operation on the store. -/
def applyPipelineOp (s : Store) : PipelineOp → Store
  | .insertMetrics m => batchInsertMetrics s m
  | .insertTotalMetrics m => batchInsertTotalMetrics s m
  | .clear now hoursAgo => clearMetrics now hoursAgo s
  | .deleteOne k => deleteKey s k
  | .deleteEverything => deleteAll s

/-- Effect of a sequence of pipeline operations. -/
def applyPipelineOps (s : Store) (ops : List PipelineOp) : Store :=
  ops.foldl applyPipelineOp s

/-- The batch-write operations among the pipeline operations. -/
def IsBatchWrite : PipelineOp → Prop
  | .insertMetrics _ => True
  | .insertTotalMetrics _ => True
  | _ => False

/-- The state invariant: each table holds at most one row per primary key. -/
def StoreInv (s : Store) : Prop :=
  NodupKeys envTableKey s.client_metrics_env ∧
    NodupKeys variantTableKey s.client_metrics_env_variants ∧
    NodupKeys totalTableKey s.client_metrics_total

end Pipeline

section ClaimC9

/-- C9: for a metrics sequence that is null/undefined (`none`) or empty, both
`batchInsertMetrics` and `batchInsertTotalMetrics` return without issuing any
database statement and leave all three tables unchanged; moreover, whenever a
batch yields zero variant rows, no insert is issued against the variant
table. -/
theorem claim_C9 (m : Option (List IClientMetricsEnv)) (s : Store) :
    ((m = none ∨ m = some []) →
      batchInsertMetricsOps m = [] ∧ batchInsertTotalMetricsOps m = [] ∧
      batchInsertMetrics s m = s ∧ batchInsertTotalMetrics s m = s) ∧
    (∀ ms, m = some ms → sortedVariantRows ms = [] →
      ∀ vrows, DbOp.insertVariantRows vrows ∉ batchInsertMetricsOps m) := by
  constructor
  · rintro (rfl | rfl) <;> exact ⟨rfl, rfl, rfl, rfl⟩
  · rintro ms rfl hvr vrows hmem
    simp only [batchInsertMetricsOps] at hmem
    by_cases hlen : ms.length = 0
    · rw [if_pos hlen] at hmem
      exact List.not_mem_nil _ hmem
    · rw [if_neg hlen, hvr] at hmem
      simp at hmem

/-- C9 witness: the empty and the no-variant cases at concrete inputs. -/
theorem claim_C9_witness :
    batchInsertMetrics emptyStore (some []) = emptyStore ∧
    DbOp.insertVariantRows [] ∉
      batchInsertMetricsOps (some [⟨"f1", "a1", "prod", 0, 1, 0, []⟩]) :=
  ⟨((claim_C9 (some []) emptyStore).1 (Or.inr rfl)).2.2.1,
   (claim_C9 (some [⟨"f1", "a1", "prod", 0, 1, 0, []⟩]) emptyStore).2
     [⟨"f1", "a1", "prod", 0, 1, 0, []⟩] rfl rfl []⟩

end ClaimC9

section ClaimC5

/-- C5 counterexample: `clearMetrics` deletes with `timestamp <= NOW() -
INTERVAL N hours`, so a record whose hour is exactly at the boundary (here
`now − 48h` with `now = 360000`) is deleted, while the claim says it remains
untouched. -/
theorem claim_C5_counterexample :
    clearMetrics (3600 * 100) 48
        ⟨[⟨"f1", "a1", "prod", 3600 * 52, 1, 0⟩], [], []⟩ =
      ⟨[], [], []⟩ := by
  decide

/-- C5 amended: after `clearMetrics(N)` exactly the hourly records whose
`hourTimestamp` is strictly newer than now − N hours remain (the record at the
boundary is deleted together with the older ones); the survivors are kept
as stored, and the variant and total tables are untouched.  The hypothesis
keeps now − N hours non-negative, the regime where saturating `Nat`
subtraction agrees with the SQL interval arithmetic. -/
theorem claim_C5 (now hoursAgo : Nat) (s : Store) (h : hoursAgo * 3600 ≤ now)
    (r : ClientMetricsEnvTable) :
    (r ∈ (clearMetrics now hoursAgo s).client_metrics_env ↔
      (r ∈ s.client_metrics_env ∧ now - hoursAgo * 3600 < r.timestamp)) ∧
    (clearMetrics now hoursAgo s).client_metrics_env.Sublist s.client_metrics_env ∧
    (clearMetrics now hoursAgo s).client_metrics_env_variants =
      s.client_metrics_env_variants ∧
    (clearMetrics now hoursAgo s).client_metrics_total = s.client_metrics_total := by
  refine ⟨?_, List.filter_sublist _, rfl, rfl⟩
  unfold clearMetrics
  rw [List.mem_filter]
  constructor
  · intro hr
    refine ⟨hr.1, ?_⟩
    have h2 := hr.2
    simp only [Bool.not_eq_true', decide_eq_false_iff_not, Nat.not_le] at h2
    exact h2
  · intro hr
    refine ⟨hr.1, ?_⟩
    simp only [Bool.not_eq_true', decide_eq_false_iff_not, Nat.not_le]
    exact hr.2

/-- C5 witness: the amended retention behaviour at a concrete store. -/
theorem claim_C5_witness :
    (⟨"f1", "a1", "prod", 3600 * 53, 1, 0⟩ : ClientMetricsEnvTable) ∈
      (clearMetrics (3600 * 100) 48
        ⟨[⟨"f1", "a1", "prod", 3600 * 53, 1, 0⟩], [], []⟩).client_metrics_env :=
  ((claim_C5 (3600 * 100) 48 ⟨[⟨"f1", "a1", "prod", 3600 * 53, 1, 0⟩], [], []⟩
      (by decide) ⟨"f1", "a1", "prod", 3600 * 53, 1, 0⟩).1).mpr
    ⟨List.mem_cons_self _ _, by decide⟩

end ClaimC5

section ClaimC10

/-- C10 counterexample: `get` floors the key's timestamp with `startOfHour`
before filtering, so with a single record stored at hour 3600 the lookup at
key timestamp 3601 succeeds even though no record exists at exactly that key,
contradicting "fails with NotFound if and only if no record exists at the
key". -/
theorem claim_C10_counterexample :
    (get ⟨[⟨"f1", "a1", "prod", 3600, 1, 2⟩], [], []⟩
        ⟨"f1", "a1", "prod", 3601⟩).isSome = true ∧
    ∀ r ∈ ([⟨"f1", "a1", "prod", 3600, 1, 2⟩] : List ClientMetricsEnvTable),
      ¬ (r.timestamp = 3601) := by
  decide

/-- C10 amended: `get(key)` succeeds exactly when a record exists at the key
with its timestamp floored to the start of its hour, and then returns that
stored record; `exists(key)` is the boolean success of `get` (the catch-all
around `get` makes it return `false` instead of raising). -/
theorem claim_C10 (s : Store) (k : IClientMetricsEnvKey) :
    ((get s k).isSome ↔ ∃ r ∈ s.client_metrics_env,
        r.feature_name = k.featureName ∧ r.app_name = k.appName ∧
        r.environment = k.environment ∧ r.timestamp = startOfHour k.timestamp) ∧
    (∀ d, get s k = some d → ∃ r ∈ s.client_metrics_env,
        (r.feature_name = k.featureName ∧ r.app_name = k.appName ∧
         r.environment = k.environment ∧ r.timestamp = startOfHour k.timestamp) ∧
        d = fromRow r) ∧
    exists' s k = (get s k).isSome := by
  refine ⟨?_, ?_, rfl⟩
  · unfold get
    rw [Option.isSome_map', List.find?_isSome]
    constructor
    · rintro ⟨r, hr, hp⟩
      simp only [Bool.and_eq_true, decide_eq_true_eq] at hp
      exact ⟨r, hr, hp.1.1.1, hp.1.1.2, hp.1.2, hp.2⟩
    · rintro ⟨r, hr, h1, h2, h3, h4⟩
      exact ⟨r, hr, by simp [h1, h2, h3, h4]⟩
  · intro d hd
    unfold get at hd
    rcases Option.map_eq_some'.mp hd with ⟨r, hfind, hrow⟩
    have hp := List.find?_some hfind
    simp only [Bool.and_eq_true, decide_eq_true_eq] at hp
    exact ⟨r, List.mem_of_find?_eq_some hfind,
      ⟨hp.1.1.1, hp.1.1.2, hp.1.2, hp.2⟩, hrow.symm⟩

/-- C10 witness: the amended lookup behaviour at a concrete store and key. -/
theorem claim_C10_witness :
    exists' ⟨[⟨"f1", "a1", "prod", 3600, 1, 2⟩], [], []⟩ ⟨"f1", "a1", "prod", 3600⟩ =
      (get ⟨[⟨"f1", "a1", "prod", 3600, 1, 2⟩], [], []⟩
        ⟨"f1", "a1", "prod", 3600⟩).isSome :=
  (claim_C10 ⟨[⟨"f1", "a1", "prod", 3600, 1, 2⟩], [], []⟩
    ⟨"f1", "a1", "prod", 3600⟩).2.2

end ClaimC10

section BatchHelpers

theorem envTableKey_add (s r : ClientMetricsEnvTable) :
    envTableKey (envTableAdd s r) = envTableKey s := rfl

theorem variantTableKey_add (s r : ClientMetricsEnvVariantTable) :
    variantTableKey (variantTableAdd s r) = variantTableKey s := rfl

theorem totalTableKey_add (s r : ClientMetricsTotalTable) :
    totalTableKey (totalTableAdd s r) = totalTableKey s := rfl

/-- The hourly table after `batchInsertMetrics`. -/
theorem batchInsertMetrics_env (s : Store) (ms : List IClientMetricsEnv) :
    (batchInsertMetrics s (some ms)).client_metrics_env =
      if ms.length = 0 then s.client_metrics_env
      else applyRows envTableKey envTableAdd s.client_metrics_env (sortedHourlyRows ms) := by
  by_cases h : ms.length = 0
  · simp [batchInsertMetrics, batchInsertMetricsOps, h, applyDbOps]
  · by_cases hv : (sortedVariantRows ms).length > 0 <;>
      simp [batchInsertMetrics, batchInsertMetricsOps, h, hv, applyDbOps, applyDbOp]

/-- The variant table after `batchInsertMetrics` (when the variant insert is
skipped the submitted row list is empty, and applying it changes nothing). -/
theorem batchInsertMetrics_variants (s : Store) (ms : List IClientMetricsEnv) :
    (batchInsertMetrics s (some ms)).client_metrics_env_variants =
      if ms.length = 0 then s.client_metrics_env_variants
      else applyRows variantTableKey variantTableAdd s.client_metrics_env_variants
        (sortedVariantRows ms) := by
  by_cases h : ms.length = 0
  · simp [batchInsertMetrics, batchInsertMetricsOps, h, applyDbOps]
  · by_cases hv : (sortedVariantRows ms).length > 0
    · simp [batchInsertMetrics, batchInsertMetricsOps, h, hv, applyDbOps, applyDbOp]
    · have hnil : sortedVariantRows ms = [] := by
        cases hc : sortedVariantRows ms with
        | nil => rfl
        | cons a l => rw [hc] at hv; exact absurd (by simp) hv
      simp [batchInsertMetrics, batchInsertMetricsOps, h, hv, applyDbOps, applyDbOp,
        hnil, applyRows]

/-- `batchInsertMetrics` never touches the total table. -/
theorem batchInsertMetrics_total (s : Store) (m : Option (List IClientMetricsEnv)) :
    (batchInsertMetrics s m).client_metrics_total = s.client_metrics_total := by
  cases m with
  | none => rfl
  | some ms =>
      by_cases h : ms.length = 0
      · simp [batchInsertMetrics, batchInsertMetricsOps, h, applyDbOps]
      · by_cases hv : (sortedVariantRows ms).length > 0 <;>
          simp [batchInsertMetrics, batchInsertMetricsOps, h, hv, applyDbOps, applyDbOp]

/-- The total table after `batchInsertTotalMetrics`. -/
theorem batchInsertTotalMetrics_total (s : Store) (ms : List IClientMetricsEnv) :
    (batchInsertTotalMetrics s (some ms)).client_metrics_total =
      if ms.length = 0 then s.client_metrics_total
      else applyRows totalTableKey totalTableAdd s.client_metrics_total
        (sortedTotalRows ms) := by
  by_cases h : ms.length = 0 <;>
    simp [batchInsertTotalMetrics, batchInsertTotalMetricsOps, h, applyDbOps, applyDbOp]

/-- `batchInsertTotalMetrics` touches neither the hourly nor the variant
table. -/
theorem batchInsertTotalMetrics_other (s : Store) (m : Option (List IClientMetricsEnv)) :
    (batchInsertTotalMetrics s m).client_metrics_env = s.client_metrics_env ∧
    (batchInsertTotalMetrics s m).client_metrics_env_variants =
      s.client_metrics_env_variants := by
  cases m with
  | none => exact ⟨rfl, rfl⟩
  | some ms =>
      by_cases h : ms.length = 0 <;>
        simp [batchInsertTotalMetrics, batchInsertTotalMetricsOps, h, applyDbOps, applyDbOp]

/-- Writing the hourly batch twice from empty doubles `yes` and `no`
pointwise. -/
theorem env_applyRows_double (rows : List ClientMetricsEnvTable)
    (k : String × String × String × Nat) :
    lookupKey envTableKey
        (applyRows envTableKey envTableAdd
          (applyRows envTableKey envTableAdd [] rows) rows) k =
      (lookupKey envTableKey (applyRows envTableKey envTableAdd [] rows) k).map
        (fun r0 => { r0 with yes := 2 * r0.yes, no := 2 * r0.no }) := by
  rw [lookupKey_applyRows_twice envTableKey envTableAdd (fun s r => rfl),
     lookupKey_applyRows_nil envTableKey envTableAdd (fun s r => rfl)]
  cases hf : rows.filter (fun r => decide (envTableKey r = k)) with
  | nil => rfl
  | cons r0 rest =>
      simp only [Option.map_some']
      congr 1
      have hyes := measure_foldl_add envTableAdd (fun r => r.yes) (fun s r => rfl)
        (rest.foldl envTableAdd r0) (r0 :: rest)
      have hno := measure_foldl_add envTableAdd (fun r => r.no) (fun s r => rfl)
        (rest.foldl envTableAdd r0) (r0 :: rest)
      have hyes0 := measure_foldl_add envTableAdd (fun r => r.yes) (fun s r => rfl) r0 rest
      have hno0 := measure_foldl_add envTableAdd (fun r => r.no) (fun s r => rfl) r0 rest
      have hk := key_foldl_add envTableKey envTableAdd envTableKey_add
        (rest.foldl envTableAdd r0) (r0 :: rest)
      simp only [envTableKey, Prod.mk.injEq] at hk
      apply ClientMetricsEnvTable.ext
      · exact hk.1
      · exact hk.2.1
      · exact hk.2.2.1
      · exact hk.2.2.2
      · rw [hyes]
        simp only [List.map_cons, List.sum_cons]
        omega
      · rw [hno]
        simp only [List.map_cons, List.sum_cons]
        omega

/-- Writing the variant batch twice from empty doubles `count` pointwise. -/
theorem variant_applyRows_double (rows : List ClientMetricsEnvVariantTable)
    (k : String × String × String × Nat × String) :
    lookupKey variantTableKey
        (applyRows variantTableKey variantTableAdd
          (applyRows variantTableKey variantTableAdd [] rows) rows) k =
      (lookupKey variantTableKey
          (applyRows variantTableKey variantTableAdd [] rows) k).map
        (fun v0 => { v0 with count := 2 * v0.count }) := by
  rw [lookupKey_applyRows_twice variantTableKey variantTableAdd (fun s r => rfl),
     lookupKey_applyRows_nil variantTableKey variantTableAdd (fun s r => rfl)]
  cases hf : rows.filter (fun r => decide (variantTableKey r = k)) with
  | nil => rfl
  | cons r0 rest =>
      simp only [Option.map_some']
      congr 1
      have hcount := measure_foldl_add variantTableAdd (fun r => r.count) (fun s r => rfl)
        (rest.foldl variantTableAdd r0) (r0 :: rest)
      have hcount0 := measure_foldl_add variantTableAdd (fun r => r.count)
        (fun s r => rfl) r0 rest
      have hk := key_foldl_add variantTableKey variantTableAdd variantTableKey_add
        (rest.foldl variantTableAdd r0) (r0 :: rest)
      simp only [variantTableKey, Prod.mk.injEq] at hk
      apply ClientMetricsEnvVariantTable.ext
      · exact hk.1
      · exact hk.2.1
      · exact hk.2.2.1
      · exact hk.2.2.2.1
      · exact hk.2.2.2.2
      · rw [hcount]
        simp only [List.map_cons, List.sum_cons]
        omega

/-- Writing the total batch twice from empty doubles `total` pointwise. -/
theorem total_applyRows_double (rows : List ClientMetricsTotalTable)
    (k : String × String) :
    lookupKey totalTableKey
        (applyRows totalTableKey totalTableAdd
          (applyRows totalTableKey totalTableAdd [] rows) rows) k =
      (lookupKey totalTableKey
          (applyRows totalTableKey totalTableAdd [] rows) k).map
        (fun t0 => { t0 with total := 2 * t0.total }) := by
  rw [lookupKey_applyRows_twice totalTableKey totalTableAdd (fun s r => rfl),
     lookupKey_applyRows_nil totalTableKey totalTableAdd (fun s r => rfl)]
  cases hf : rows.filter (fun r => decide (totalTableKey r = k)) with
  | nil => rfl
  | cons r0 rest =>
      simp only [Option.map_some']
      congr 1
      have htotal := measure_foldl_add totalTableAdd (fun r => r.total) (fun s r => rfl)
        (rest.foldl totalTableAdd r0) (r0 :: rest)
      have htotal0 := measure_foldl_add totalTableAdd (fun r => r.total)
        (fun s r => rfl) r0 rest
      have hk := key_foldl_add totalTableKey totalTableAdd totalTableKey_add
        (rest.foldl totalTableAdd r0) (r0 :: rest)
      simp only [totalTableKey, Prod.mk.injEq] at hk
      apply ClientMetricsTotalTable.ext
      · exact hk.1
      · exact hk.2
      · rw [htotal]
        simp only [List.map_cons, List.sum_cons]
        omega

end BatchHelpers

section InvariantHelpers

theorem storeInv_empty : StoreInv emptyStore :=
  ⟨List.Pairwise.nil, List.Pairwise.nil, List.Pairwise.nil⟩

theorem storeInv_applyDbOp (s : Store) (h : StoreInv s) (op : DbOp) :
    StoreInv (applyDbOp s op) := by
  rcases h with ⟨h1, h2, h3⟩
  cases op with
  | insertEnvRows rows =>
      exact ⟨nodupKeys_applyRows _ _ envTableKey_add _ _ h1, h2, h3⟩
  | insertVariantRows rows =>
      exact ⟨h1, nodupKeys_applyRows _ _ variantTableKey_add _ _ h2, h3⟩
  | insertTotalRows rows =>
      exact ⟨h1, h2, nodupKeys_applyRows _ _ totalTableKey_add _ _ h3⟩

theorem storeInv_applyDbOps (s : Store) (h : StoreInv s) (ops : List DbOp) :
    StoreInv (applyDbOps s ops) := by
  induction ops generalizing s with
  | nil => exact h
  | cons op rest ih => exact ih _ (storeInv_applyDbOp s h op)

theorem storeInv_applyPipelineOp (s : Store) (h : StoreInv s) (op : PipelineOp) :
    StoreInv (applyPipelineOp s op) := by
  cases op with
  | insertMetrics m => exact storeInv_applyDbOps s h _
  | insertTotalMetrics m => exact storeInv_applyDbOps s h _
  | clear now hoursAgo => exact ⟨List.Pairwise.filter _ h.1, h.2.1, h.2.2⟩
  | deleteOne k => exact ⟨List.Pairwise.filter _ h.1, h.2.1, h.2.2⟩
  | deleteEverything => exact ⟨List.Pairwise.nil, h.2.1, h.2.2⟩

/-- Pointwise domination of hourly tables: every stored row survives with
counters at least as large. -/
def EnvLE (t t' : List ClientMetricsEnvTable) : Prop :=
  ∀ k r0, lookupKey envTableKey t k = some r0 →
    ∃ r1, lookupKey envTableKey t' k = some r1 ∧ r0.yes ≤ r1.yes ∧ r0.no ≤ r1.no

/-- Pointwise domination of variant tables. -/
def VariantLE (t t' : List ClientMetricsEnvVariantTable) : Prop :=
  ∀ k r0, lookupKey variantTableKey t k = some r0 →
    ∃ r1, lookupKey variantTableKey t' k = some r1 ∧ r0.count ≤ r1.count

/-- Pointwise domination of total tables. -/
def TotalLE (t t' : List ClientMetricsTotalTable) : Prop :=
  ∀ k r0, lookupKey totalTableKey t k = some r0 →
    ∃ r1, lookupKey totalTableKey t' k = some r1 ∧ r0.total ≤ r1.total

/-- Pointwise domination of whole stores: no counter ever decreases. -/
def StoreLE (s s' : Store) : Prop :=
  EnvLE s.client_metrics_env s'.client_metrics_env ∧
    VariantLE s.client_metrics_env_variants s'.client_metrics_env_variants ∧
    TotalLE s.client_metrics_total s'.client_metrics_total

theorem storeLE_refl (s : Store) : StoreLE s s :=
  ⟨fun _ r0 h => ⟨r0, h, le_rfl, le_rfl⟩, fun _ r0 h => ⟨r0, h, le_rfl⟩,
   fun _ r0 h => ⟨r0, h, le_rfl⟩⟩

theorem storeLE_trans {a b c : Store} (hab : StoreLE a b) (hbc : StoreLE b c) :
    StoreLE a c := by
  rcases hab with ⟨h1, h2, h3⟩
  rcases hbc with ⟨g1, g2, g3⟩
  refine ⟨fun k r0 h0 => ?_, fun k r0 h0 => ?_, fun k r0 h0 => ?_⟩
  · rcases h1 k r0 h0 with ⟨r1, hb, hy, hn⟩
    rcases g1 k r1 hb with ⟨r2, hc, hy2, hn2⟩
    exact ⟨r2, hc, le_trans hy hy2, le_trans hn hn2⟩
  · rcases h2 k r0 h0 with ⟨r1, hb, hc1⟩
    rcases g2 k r1 hb with ⟨r2, hc, hc2⟩
    exact ⟨r2, hc, le_trans hc1 hc2⟩
  · rcases h3 k r0 h0 with ⟨r1, hb, hc1⟩
    rcases g3 k r1 hb with ⟨r2, hc, hc2⟩
    exact ⟨r2, hc, le_trans hc1 hc2⟩

theorem envLE_applyRows (t : List ClientMetricsEnvTable)
    (rows : List ClientMetricsEnvTable) :
    EnvLE t (applyRows envTableKey envTableAdd t rows) := by
  intro k r0 h0
  rcases lookupKey_applyRows_mono envTableKey envTableAdd envTableKey_add
      (fun r => r.yes) (fun s r => Nat.le_add_right _ _) t rows k r0 h0 with ⟨r1, h1, hy⟩
  rcases lookupKey_applyRows_mono envTableKey envTableAdd envTableKey_add
      (fun r => r.no) (fun s r => Nat.le_add_right _ _) t rows k r0 h0 with ⟨r2, h2, hn⟩
  rw [h1] at h2
  have he : r1 = r2 := Option.some.inj h2
  subst he
  exact ⟨r1, h1, hy, hn⟩

theorem variantLE_applyRows (t : List ClientMetricsEnvVariantTable)
    (rows : List ClientMetricsEnvVariantTable) :
    VariantLE t (applyRows variantTableKey variantTableAdd t rows) := by
  intro k r0 h0
  exact lookupKey_applyRows_mono variantTableKey variantTableAdd variantTableKey_add
    (fun r => r.count) (fun s r => Nat.le_add_right _ _) t rows k r0 h0

theorem totalLE_applyRows (t : List ClientMetricsTotalTable)
    (rows : List ClientMetricsTotalTable) :
    TotalLE t (applyRows totalTableKey totalTableAdd t rows) := by
  intro k r0 h0
  exact lookupKey_applyRows_mono totalTableKey totalTableAdd totalTableKey_add
    (fun r => r.total) (fun s r => Nat.le_add_right _ _) t rows k r0 h0

theorem storeLE_batchInsertMetrics (s : Store) (m : Option (List IClientMetricsEnv)) :
    StoreLE s (batchInsertMetrics s m) := by
  cases m with
  | none => exact storeLE_refl s
  | some ms =>
      refine ⟨?_, ?_, ?_⟩
      · rw [batchInsertMetrics_env]
        by_cases hl : ms.length = 0
        · rw [if_pos hl]
          exact (storeLE_refl s).1
        · rw [if_neg hl]
          exact envLE_applyRows _ _
      · rw [batchInsertMetrics_variants]
        by_cases hl : ms.length = 0
        · rw [if_pos hl]
          exact (storeLE_refl s).2.1
        · rw [if_neg hl]
          exact variantLE_applyRows _ _
      · rw [batchInsertMetrics_total]
        exact (storeLE_refl s).2.2

theorem storeLE_batchInsertTotalMetrics (s : Store)
    (m : Option (List IClientMetricsEnv)) :
    StoreLE s (batchInsertTotalMetrics s m) := by
  cases m with
  | none => exact storeLE_refl s
  | some ms =>
      refine ⟨?_, ?_, ?_⟩
      · rw [(batchInsertTotalMetrics_other s (some ms)).1]
        exact (storeLE_refl s).1
      · rw [(batchInsertTotalMetrics_other s (some ms)).2]
        exact (storeLE_refl s).2.1
      · rw [batchInsertTotalMetrics_total]
        by_cases hl : ms.length = 0
        · rw [if_pos hl]
          exact (storeLE_refl s).2.2
        · rw [if_neg hl]
          exact totalLE_applyRows _ _

theorem storeLE_applyPipelineOps_writes (s : Store) (ws : List PipelineOp)
    (hws : ∀ op ∈ ws, IsBatchWrite op) : StoreLE s (applyPipelineOps s ws) := by
  induction ws generalizing s with
  | nil => exact storeLE_refl s
  | cons w rest ih =>
      have hw := hws w (List.mem_cons_self _ _)
      have h1 : StoreLE s (applyPipelineOp s w) := by
        cases w with
        | insertMetrics m => exact storeLE_batchInsertMetrics s m
        | insertTotalMetrics m => exact storeLE_batchInsertTotalMetrics s m
        | clear now hoursAgo => exact hw.elim
        | deleteOne k => exact hw.elim
        | deleteEverything => exact hw.elim
      exact storeLE_trans h1
        (ih _ (fun op hop => hws op (List.mem_cons_of_mem w hop)))

end InvariantHelpers

section ClaimC3

/-- C3: every pipeline operation (both batch writers, the retention sweep,
single-key delete and delete-all) preserves the at-most-one-row-per-key
invariant of all three tables, and across any sequence of batch-write
operations no stored counter (`yes`, `no`, `count`, `total`) ever
decreases. -/
theorem claim_C3 (s : Store) (hInv : StoreInv s) (op : PipelineOp)
    (ws : List PipelineOp) (hws : ∀ w ∈ ws, IsBatchWrite w) :
    StoreInv (applyPipelineOp s op) ∧ StoreLE s (applyPipelineOps s ws) :=
  ⟨storeInv_applyPipelineOp s hInv op, storeLE_applyPipelineOps_writes s ws hws⟩

/-- C3 witness: invariant preservation and counter growth at a concrete
store, operation and batch-write sequence. -/
theorem claim_C3_witness :
    StoreInv (applyPipelineOp emptyStore (PipelineOp.clear 7200 1)) ∧
    StoreLE emptyStore (applyPipelineOps emptyStore
      [PipelineOp.insertMetrics (some [⟨"f1", "a1", "prod", 3600, 1, 0, []⟩])]) :=
  claim_C3 emptyStore ⟨List.Pairwise.nil, List.Pairwise.nil, List.Pairwise.nil⟩
    (PipelineOp.clear 7200 1)
    [PipelineOp.insertMetrics (some [⟨"f1", "a1", "prod", 3600, 1, 0, []⟩])]
    (by
      intro w hw
      rw [List.mem_singleton] at hw
      rw [hw]
      trivial)

end ClaimC3

section ClaimC1

/-- C1: the writers perform insert-or-accumulate — a row whose key is absent
is appended, a row whose key is present is added onto the stored row — and
submitting the same batch twice from the empty store doubles every stored
counter (hourly `yes`/`no`, variant `count` via `batchInsertMetrics`, and
`total` via `batchInsertTotalMetrics`) without duplicating any row. -/
theorem claim_C1 (ms : List IClientMetricsEnv)
    (k : String × String × String × Nat)
    (kv : String × String × String × Nat × String) (kt : String × String)
    (t : List ClientMetricsEnvTable) (r : ClientMetricsEnvTable) :
    (lookupKey envTableKey t (envTableKey r) = none →
      upsertRow envTableKey envTableAdd t r = t ++ [r]) ∧
    (∀ s0, lookupKey envTableKey t (envTableKey r) = some s0 →
      lookupKey envTableKey (upsertRow envTableKey envTableAdd t r) (envTableKey r) =
        some (envTableAdd s0 r)) ∧
    (lookupKey envTableKey
        ((batchInsertMetrics (batchInsertMetrics emptyStore (some ms))
          (some ms)).client_metrics_env) k =
      (lookupKey envTableKey
          ((batchInsertMetrics emptyStore (some ms)).client_metrics_env) k).map
        (fun r0 => { r0 with yes := 2 * r0.yes, no := 2 * r0.no })) ∧
    (lookupKey variantTableKey
        ((batchInsertMetrics (batchInsertMetrics emptyStore (some ms))
          (some ms)).client_metrics_env_variants) kv =
      (lookupKey variantTableKey
          ((batchInsertMetrics emptyStore (some ms)).client_metrics_env_variants) kv).map
        (fun v0 => { v0 with count := 2 * v0.count })) ∧
    (lookupKey totalTableKey
        ((batchInsertTotalMetrics (batchInsertTotalMetrics emptyStore (some ms))
          (some ms)).client_metrics_total) kt =
      (lookupKey totalTableKey
          ((batchInsertTotalMetrics emptyStore (some ms)).client_metrics_total) kt).map
        (fun t0 => { t0 with total := 2 * t0.total })) ∧
    StoreInv (batchInsertMetrics emptyStore (some ms)) ∧
    StoreInv (batchInsertTotalMetrics emptyStore (some ms)) := by
  refine ⟨?_, ?_, ?_, ?_, ?_, ?_, ?_⟩
  · exact upsertRow_of_lookup_none envTableKey envTableAdd t r
  · intro s0 h0
    rw [lookupKey_upsert envTableKey envTableAdd envTableKey_add, if_pos rfl, h0]
  · rw [batchInsertMetrics_env, batchInsertMetrics_env]
    by_cases hl : ms.length = 0
    · simp [hl, emptyStore, lookupKey_nil]
    · simp only [if_neg hl]
      exact env_applyRows_double _ k
  · rw [batchInsertMetrics_variants, batchInsertMetrics_variants]
    by_cases hl : ms.length = 0
    · simp [hl, emptyStore, lookupKey_nil]
    · simp only [if_neg hl]
      exact variant_applyRows_double _ kv
  · rw [batchInsertTotalMetrics_total, batchInsertTotalMetrics_total]
    by_cases hl : ms.length = 0
    · simp [hl, emptyStore, lookupKey_nil]
    · simp only [if_neg hl]
      exact total_applyRows_double _ kt
  · exact storeInv_applyPipelineOp emptyStore storeInv_empty (.insertMetrics (some ms))
  · exact storeInv_applyPipelineOp emptyStore storeInv_empty
      (.insertTotalMetrics (some ms))

end ClaimC1

section ClaimC4

/-- Comparison on naturals, used to spell out what "sorted by the full
primary-key tuple" would require of the timestamp column. -/
def natCmp (a b : Nat) : Ordering :=
  if a < b then .lt else if b < a then .gt else .eq

/-- Lexicographic order over the full primary key of the hourly table —
feature, app, environment and timestamp — which the claim asserts the
submitted rows are sorted by. -/
def hourlyFullPkCmp (a b : ClientMetricsEnvTable) : Ordering :=
  (strCmp a.feature_name b.feature_name).then
    ((strCmp a.app_name b.app_name).then
      ((strCmp a.environment b.environment).then (natCmp a.timestamp b.timestamp)))

/-- C4 counterexample: two events of the same feature/app/environment in
different hours.  The sort comparator never inspects the timestamp, the
stable sort keeps the collapse (first-occurrence) order, and the submitted
sequence is not sorted by the full primary-key tuple: the hour-7200 row
precedes the hour-3600 row. -/
theorem claim_C4_counterexample :
    sortedHourlyRows [⟨"f1", "a1", "prod", 7200, 1, 0, []⟩,
        ⟨"f1", "a1", "prod", 3600, 2, 0, []⟩] =
      [⟨"f1", "a1", "prod", 7200, 1, 0⟩, ⟨"f1", "a1", "prod", 3600, 2, 0⟩] ∧
    ¬ SortedBy hourlyFullPkCmp
        (sortedHourlyRows [⟨"f1", "a1", "prod", 7200, 1, 0, []⟩,
          ⟨"f1", "a1", "prod", 3600, 2, 0, []⟩]) := by
  constructor
  · decide
  · simp only [SortedBy]
    decide

/-- C4 amended: the row sequences submitted by `batchInsertMetrics` are sorted
by the comparator the source passes to `sort` — lexicographic on (feature,
app, environment) for hourly rows, and on (feature, app, environment,
variant) for variant rows — a total preorder over the primary-key components
that omits the timestamp column; the sequence therefore need not be sorted by
the full primary-key tuple. -/
theorem claim_C4 (metrics : List IClientMetricsEnv) :
    SortedBy hourlySortCmp (sortedHourlyRows metrics) ∧
    SortedBy variantSortCmp (sortedVariantRows metrics) :=
  ⟨sortByCmp_sorted _ hourlySortCmp_asymm hourlySortCmp_le_trans _,
   sortByCmp_sorted _ variantSortCmp_asymm variantSortCmp_le_trans _⟩

end ClaimC4

section ClaimC7

theorem collapse_nodup (ms : List IClientMetricsEnv) :
    NodupKeys metricKey (collapseHourlyMetrics ms) :=
  nodupKeys_applyRows metricKey metricAdd (fun s r => rfl) [] (ms.map floorEv)
    List.Pairwise.nil

theorem hourlyRows_map_nodup (ms : List IClientMetricsEnv) :
    NodupKeys envTableKey ((collapseHourlyMetrics ms).map toRow) :=
  List.Pairwise.map toRow (fun a b hab hc => hab hc) (collapse_nodup ms)

theorem sortedHourlyRows_nodup (ms : List IClientMetricsEnv) :
    NodupKeys envTableKey (sortedHourlyRows ms) := by
  exact ((sortByCmp_perm hourlySortCmp _).pairwise_iff
    (fun hxy hc => hxy hc.symm)).mpr (hourlyRows_map_nodup ms)

theorem mem_sortedHourlyRows (ms : List IClientMetricsEnv)
    (row : ClientMetricsEnvTable) (h : row ∈ sortedHourlyRows ms) :
    ∃ m ∈ ms, row.feature_name = m.featureName ∧ row.app_name = m.appName ∧
      row.environment = m.environment ∧ row.timestamp = startOfHour m.timestamp := by
  rw [sortedHourlyRows, mem_sortByCmp] at h
  rcases List.mem_map.mp h with ⟨c, hc, hrow⟩
  rcases key_mem_applyRows metricKey metricAdd (fun s r => rfl) [] (ms.map floorEv)
      c hc with ⟨s, hs, _⟩ | ⟨i, hi, hk⟩
  · exact absurd hs (List.not_mem_nil s)
  · rcases List.mem_map.mp hi with ⟨m, hm, hfm⟩
    rw [← hfm] at hk
    simp only [metricKey, floorEv, Prod.mk.injEq, startOfHour_idem] at hk
    refine ⟨m, hm, ?_⟩
    rw [← hrow]
    simp only [toRow]
    exact ⟨hk.1, hk.2.1, hk.2.2.1, hk.2.2.2⟩

theorem mem_sortedVariantRows (ms : List IClientMetricsEnv)
    (vrow : ClientMetricsEnvVariantTable) (h : vrow ∈ sortedVariantRows ms) :
    ∃ m ∈ ms, vrow.feature_name = m.featureName ∧ vrow.app_name = m.appName ∧
      vrow.environment = m.environment ∧ vrow.timestamp = startOfHour m.timestamp := by
  rw [sortedVariantRows, mem_sortByCmp] at h
  rcases List.mem_map.mp h with ⟨c, hc, hrow⟩
  rcases key_mem_applyRows variantMetricKey variantMetricAdd (fun s r => rfl) []
      (ms.flatMap fun m => m.variants.map (spreadRow m)) c hc with ⟨s, hs, _⟩ | ⟨i, hi, hk⟩
  · exact absurd hs (List.not_mem_nil s)
  · rcases List.mem_flatMap.mp hi with ⟨m, hm, him⟩
    rcases List.mem_map.mp him with ⟨p, _, hpm⟩
    rw [← hpm] at hk
    simp only [variantMetricKey, spreadRow, Prod.mk.injEq, startOfHour_idem] at hk
    refine ⟨m, hm, ?_⟩
    rw [← hrow]
    simp only [toVariantRow]
    exact ⟨hk.1, hk.2.1, hk.2.2.1, hk.2.2.2.1⟩

/-- The full compaction characterization: the submitted hourly row at a key
carries exactly the elementwise sums of the events falling into that key
after flooring. -/
theorem sortedHourlyRows_lookup (ms : List IClientMetricsEnv) (f a e : String)
    (H : Nat) :
    lookupKey envTableKey (sortedHourlyRows ms) (f, a, e, H) =
      match ms.filter (fun m => decide (m.featureName = f ∧ m.appName = a ∧
          m.environment = e ∧ startOfHour m.timestamp = H)) with
      | [] => none
      | m0 :: rest => some ⟨f, a, e, H, ((m0 :: rest).map (fun m => m.yes)).sum,
          ((m0 :: rest).map (fun m => m.no)).sum⟩ := by
  have h1 : lookupKey envTableKey (sortedHourlyRows ms) (f, a, e, H) =
      lookupKey envTableKey ((collapseHourlyMetrics ms).map toRow) (f, a, e, H) := by
    unfold lookupKey
    exact find?_perm_of_unique _ _ _ (sortByCmp_perm hourlySortCmp _)
      (nodupKeys_unique_pred envTableKey _ (sortedHourlyRows_nodup ms) (f, a, e, H))
  have h2 : lookupKey envTableKey ((collapseHourlyMetrics ms).map toRow) (f, a, e, H) =
      (lookupKey metricKey (collapseHourlyMetrics ms) (f, a, e, H)).map toRow := by
    unfold lookupKey
    rw [List.find?_map]
    rfl
  rw [h1, h2]
  unfold collapseHourlyMetrics
  rw [lookupKey_applyRows_nil metricKey metricAdd (fun s r => rfl)]
  have h4 : (ms.map floorEv).filter
        (fun i => decide (metricKey i = (f, a, e, H))) =
      (ms.filter (fun m => decide (m.featureName = f ∧ m.appName = a ∧
        m.environment = e ∧ startOfHour m.timestamp = H))).map floorEv := by
    rw [List.filter_map]
    congr 1
    apply List.filter_congr
    intro m _
    simp only [Function.comp_apply]
    rw [decide_eq_decide]
    simp [metricKey, floorEv, Prod.ext_iff, startOfHour_idem]
  rw [h4]
  cases hg : ms.filter (fun m => decide (m.featureName = f ∧ m.appName = a ∧
      m.environment = e ∧ startOfHour m.timestamp = H)) with
  | nil => rfl
  | cons m0 rest =>
      have hm0 : m0 ∈ ms.filter (fun m => decide (m.featureName = f ∧ m.appName = a ∧
          m.environment = e ∧ startOfHour m.timestamp = H)) := by
        rw [hg]
        exact List.mem_cons_self _ _
      have hp0 := (List.mem_filter.mp hm0).2
      have hp0' := of_decide_eq_true hp0
      simp only [List.map_cons, Option.map_some']
      congr 1
      have hfields := key_foldl_add
        (fun m : IClientMetricsEnv => (m.featureName, m.appName, m.environment, m.timestamp))
        metricAdd (fun s r => rfl) (floorEv m0) (rest.map floorEv)
      simp only [Prod.mk.injEq] at hfields
      have hyes := measure_foldl_add metricAdd (fun m => m.yes) (fun s r => rfl)
        (floorEv m0) (rest.map floorEv)
      have hno := measure_foldl_add metricAdd (fun m => m.no) (fun s r => rfl)
        (floorEv m0) (rest.map floorEv)
      apply ClientMetricsEnvTable.ext
      · simp only [toRow]
        rw [hfields.1]
        exact hp0'.1
      · simp only [toRow]
        rw [hfields.2.1]
        exact hp0'.2.1
      · simp only [toRow]
        rw [hfields.2.2.1]
        exact hp0'.2.2.1
      · simp only [toRow]
        rw [hfields.2.2.2]
        simp only [floorEv]
        rw [startOfHour_idem]
        exact hp0'.2.2.2
      · simp only [toRow]
        rw [hyes]
        simp only [floorEv, List.map_map, List.map_cons, List.sum_cons]
        rfl
      · simp only [toRow]
        rw [hno]
        simp only [floorEv, List.map_map, List.map_cons, List.sum_cons]
        rfl

/-- C7: every submitted row (hourly and variant) carries the start of the
hour of one of the batch's events as its timestamp, the hourly batch holds at
most one row per key, and the row at a key carries exactly the elementwise
`yes`/`no` sums of the events grouped into that key. -/
theorem claim_C7 (ms : List IClientMetricsEnv) (f a e : String) (H : Nat) :
    (∀ row ∈ sortedHourlyRows ms, ∃ m ∈ ms,
        row.feature_name = m.featureName ∧ row.app_name = m.appName ∧
        row.environment = m.environment ∧ row.timestamp = startOfHour m.timestamp) ∧
    (∀ vrow ∈ sortedVariantRows ms, ∃ m ∈ ms,
        vrow.feature_name = m.featureName ∧ vrow.app_name = m.appName ∧
        vrow.environment = m.environment ∧ vrow.timestamp = startOfHour m.timestamp) ∧
    NodupKeys envTableKey (sortedHourlyRows ms) ∧
    (lookupKey envTableKey (sortedHourlyRows ms) (f, a, e, H) =
      match ms.filter (fun m => decide (m.featureName = f ∧ m.appName = a ∧
          m.environment = e ∧ startOfHour m.timestamp = H)) with
      | [] => none
      | m0 :: rest => some ⟨f, a, e, H, ((m0 :: rest).map (fun m => m.yes)).sum,
          ((m0 :: rest).map (fun m => m.no)).sum⟩) :=
  ⟨mem_sortedHourlyRows ms, mem_sortedVariantRows ms, sortedHourlyRows_nodup ms,
   sortedHourlyRows_lookup ms f a e H⟩

end ClaimC7

section ClaimC2

theorem join_data (f e : String) : (f ++ "_" ++ e).data = f.data ++ '_' :: e.data := by
  rw [String.data_append, String.data_append, List.append_assoc]
  rfl

/-- Underscore-joining of underscore-free components is injective. -/
theorem joinStr_inj (f1 e1 f2 e2 : String) (h1 : USfree f1.data) (h2 : USfree f2.data)
    (h : f1 ++ "_" ++ e1 = f2 ++ "_" ++ e2) : f1 = f2 ∧ e1 = e2 := by
  have hd := congrArg String.data h
  rw [join_data, join_data] at hd
  rcases us_join_inj _ _ _ _ h1 h2 hd with ⟨ha, hb⟩
  exact ⟨String.ext ha, String.ext hb⟩

/-- Splitting an underscore-joined key of underscore-free components recovers
them. -/
theorem totalRowOfEntry_join (f e : String) (hf : USfree f.data) (he : USfree e.data)
    (t : Nat) : totalRowOfEntry (f ++ "_" ++ e, t) = ⟨f, e, t⟩ := by
  unfold totalRowOfEntry
  rw [show (f ++ "_" ++ e, t).1 = f ++ "_" ++ e from rfl, join_data,
     splitUS_append _ _ hf, splitUS_of_USfree _ he]
  rfl

theorem totalAggregate_key_mem (ms : List IClientMetricsEnv) (p : String × Nat)
    (hp : p ∈ totalAggregate ms) :
    ∃ m ∈ ms, p.1 = m.featureName ++ "_" ++ m.environment := by
  rcases key_mem_applyRows Prod.fst entryAdd (fun s r => rfl) [] (ms.map entryOf)
      p hp with ⟨s, hs, _⟩ | ⟨i, hi, hk⟩
  · exact absurd hs (List.not_mem_nil s)
  · rcases List.mem_map.mp hi with ⟨m, hm, hem⟩
    rw [← hem] at hk
    exact ⟨m, hm, hk⟩

theorem totalAggregate_nodup (ms : List IClientMetricsEnv) :
    NodupKeys Prod.fst (totalAggregate ms) :=
  nodupKeys_applyRows Prod.fst entryAdd (fun s r => rfl) [] (ms.map entryOf)
    List.Pairwise.nil

theorem totalAggregate_lookup (ms : List IClientMetricsEnv) (K : String) :
    lookupKey Prod.fst (totalAggregate ms) K =
      match ms.filter (fun m => decide (m.featureName ++ "_" ++ m.environment = K)) with
      | [] => none
      | m0 :: rest => some (K, ((m0 :: rest).map (fun m => m.yes + m.no)).sum) := by
  unfold totalAggregate
  rw [lookupKey_applyRows_nil Prod.fst entryAdd (fun s r => rfl), List.filter_map]
  have hpred : ((fun p : String × Nat => decide (p.1 = K)) ∘ entryOf) =
      fun m => decide (m.featureName ++ "_" ++ m.environment = K) := rfl
  rw [hpred]
  cases hg : ms.filter (fun m => decide (m.featureName ++ "_" ++ m.environment = K)) with
  | nil => rfl
  | cons m0 rest =>
      have hm0 : m0 ∈ ms.filter
          (fun m => decide (m.featureName ++ "_" ++ m.environment = K)) := by
        rw [hg]
        exact List.mem_cons_self _ _
      have hp0 := of_decide_eq_true (List.mem_filter.mp hm0).2
      simp only [List.map_cons, Option.some.injEq]
      have hfst := key_foldl_add Prod.fst entryAdd (fun s r => rfl)
        (entryOf m0) (rest.map entryOf)
      have hsnd := measure_foldl_add entryAdd Prod.snd (fun s r => rfl)
        (entryOf m0) (rest.map entryOf)
      apply Prod.ext
      · rw [hfst]
        exact hp0
      · rw [hsnd]
        simp only [entryOf, List.map_map, List.map_cons, List.sum_cons]
        rfl

theorem totalRows_map_lookup (ms : List IClientMetricsEnv) (f e : String)
    (hms : ∀ m ∈ ms, USfree m.featureName.data ∧ USfree m.environment.data)
    (hf : USfree f.data) :
    lookupKey totalTableKey ((totalAggregate ms).map totalRowOfEntry) (f, e) =
      (lookupKey Prod.fst (totalAggregate ms) (f ++ "_" ++ e)).map totalRowOfEntry := by
  unfold lookupKey
  rw [List.find?_map]
  apply congrArg (Option.map totalRowOfEntry)
  apply find?_congr_mem
  intro p hp
  rcases totalAggregate_key_mem ms p hp with ⟨m, hm, hpk⟩
  have hmf := (hms m hm).1
  have hme := (hms m hm).2
  have hrow : totalRowOfEntry p = ⟨m.featureName, m.environment, p.2⟩ := by
    have hpair : p = (m.featureName ++ "_" ++ m.environment, p.2) := by
      rw [← hpk]
    rw [hpair]
    exact totalRowOfEntry_join _ _ hmf hme p.2
  simp only [Function.comp_apply, hrow, hpk]
  rw [decide_eq_decide]
  constructor
  · intro hkey
    simp only [totalTableKey, Prod.mk.injEq] at hkey
    rw [hkey.1, hkey.2]
  · intro hkey
    rcases joinStr_inj _ _ _ _ hmf hf hkey with ⟨h1, h2⟩
    simp only [totalTableKey, Prod.mk.injEq]
    exact ⟨h1, h2⟩

theorem totalRows_map_nodup (ms : List IClientMetricsEnv)
    (hms : ∀ m ∈ ms, USfree m.featureName.data ∧ USfree m.environment.data) :
    NodupKeys totalTableKey ((totalAggregate ms).map totalRowOfEntry) := by
  have hpair : (totalAggregate ms).Pairwise (fun p q =>
      totalTableKey (totalRowOfEntry p) ≠ totalTableKey (totalRowOfEntry q)) := by
    refine List.Pairwise.imp_of_mem ?_ (totalAggregate_nodup ms)
    intro p q hp hq hne hc
    rcases totalAggregate_key_mem ms p hp with ⟨m1, hm1, hpk1⟩
    rcases totalAggregate_key_mem ms q hq with ⟨m2, hm2, hpk2⟩
    have hrow1 : totalRowOfEntry p = ⟨m1.featureName, m1.environment, p.2⟩ := by
      have hpair1 : p = (m1.featureName ++ "_" ++ m1.environment, p.2) := by rw [← hpk1]
      rw [hpair1]
      exact totalRowOfEntry_join _ _ (hms m1 hm1).1 (hms m1 hm1).2 p.2
    have hrow2 : totalRowOfEntry q = ⟨m2.featureName, m2.environment, q.2⟩ := by
      have hpair2 : q = (m2.featureName ++ "_" ++ m2.environment, q.2) := by rw [← hpk2]
      rw [hpair2]
      exact totalRowOfEntry_join _ _ (hms m2 hm2).1 (hms m2 hm2).2 q.2
    rw [hrow1, hrow2] at hc
    simp only [totalTableKey, Prod.mk.injEq] at hc
    apply hne
    rw [hpk1, hpk2, hc.1, hc.2]
  exact List.Pairwise.map totalRowOfEntry (fun a b h => h) hpair

theorem sortedTotalRows_nodup (ms : List IClientMetricsEnv)
    (hms : ∀ m ∈ ms, USfree m.featureName.data ∧ USfree m.environment.data) :
    NodupKeys totalTableKey (sortedTotalRows ms) :=
  ((sortByCmp_perm totalSortCmp _).pairwise_iff
    (fun hxy hc => hxy hc.symm)).mpr (totalRows_map_nodup ms hms)

/-- The per-pair characterization of the submitted total rows, for
underscore-free names. -/
theorem sortedTotalRows_lookup (ms : List IClientMetricsEnv) (f e : String)
    (hms : ∀ m ∈ ms, USfree m.featureName.data ∧ USfree m.environment.data)
    (hf : USfree f.data) (he : USfree e.data) :
    lookupKey totalTableKey (sortedTotalRows ms) (f, e) =
      match ms.filter (fun m => decide (m.featureName = f ∧ m.environment = e)) with
      | [] => none
      | m0 :: rest => some ⟨f, e, ((m0 :: rest).map (fun m => m.yes + m.no)).sum⟩ := by
  have h1 : lookupKey totalTableKey (sortedTotalRows ms) (f, e) =
      lookupKey totalTableKey ((totalAggregate ms).map totalRowOfEntry) (f, e) := by
    unfold lookupKey
    exact find?_perm_of_unique _ _ _ (sortByCmp_perm totalSortCmp _)
      (nodupKeys_unique_pred totalTableKey _ (sortedTotalRows_nodup ms hms) (f, e))
  rw [h1, totalRows_map_lookup ms f e hms hf, totalAggregate_lookup]
  have hfilter : ms.filter
        (fun m => decide (m.featureName ++ "_" ++ m.environment = f ++ "_" ++ e)) =
      ms.filter (fun m => decide (m.featureName = f ∧ m.environment = e)) := by
    apply List.filter_congr
    intro m hm
    rw [decide_eq_decide]
    constructor
    · intro h
      rcases joinStr_inj _ _ _ _ (hms m hm).1 hf h with ⟨h1, h2⟩
      exact ⟨h1, h2⟩
    · intro h
      rw [h.1, h.2]
  rw [hfilter]
  cases hg : ms.filter (fun m => decide (m.featureName = f ∧ m.environment = e)) with
  | nil => rfl
  | cons m0 rest =>
      simp only [Option.map_some']
      congr 1
      exact totalRowOfEntry_join f e hf he _

/-- C2 counterexample: for `featureName = "a_b"`, the aggregation key
`"a_b_prod"` is split back as `["a","b","prod"]`, so the submitted row is
keyed `("a","b")` and nothing is ever applied to the record keyed
`("a_b","prod")`, contradicting "this holds for every featureName ...
including names containing the underscore character". -/
theorem claim_C2_counterexample :
    sortedTotalRows [⟨"a_b", "x", "prod", 0, 1, 0, []⟩] = [⟨"a", "b", 1⟩] ∧
    lookupKey totalTableKey
        ((batchInsertTotalMetrics emptyStore
          (some [⟨"a_b", "x", "prod", 0, 1, 0, []⟩])).client_metrics_total)
        ("a_b", "prod") = none := by
  decide

/-- C2 amended: for event batches whose feature and environment names are free
of the underscore separator (and an underscore-free query pair), the submitted
rows are sorted by (feature_name, environment), carry one row per
(featureName, environment) pair holding the sum of `yes + no` over the events
of that pair, and are applied by insert-or-accumulate to the total record
keyed exactly by that pair.  With names containing underscores the
string-concatenated key construction breaks this (see the counterexample). -/
theorem claim_C2 (ms : List IClientMetricsEnv) (st : Store) (f e : String)
    (hms : ∀ m ∈ ms, USfree m.featureName.data ∧ USfree m.environment.data)
    (hf : USfree f.data) (he : USfree e.data) :
    SortedBy totalSortCmp (sortedTotalRows ms) ∧
    NodupKeys totalTableKey (sortedTotalRows ms) ∧
    (lookupKey totalTableKey
        ((batchInsertTotalMetrics st (some ms)).client_metrics_total) (f, e) =
      match lookupKey totalTableKey st.client_metrics_total (f, e),
          ms.filter (fun m => decide (m.featureName = f ∧ m.environment = e)) with
      | old, [] => old
      | some r0, m0 :: rest => some { r0 with total := r0.total +
          ((m0 :: rest).map (fun m => m.yes + m.no)).sum }
      | none, m0 :: rest =>
          some ⟨f, e, ((m0 :: rest).map (fun m => m.yes + m.no)).sum⟩) := by
  refine ⟨sortByCmp_sorted _ totalSortCmp_asymm totalSortCmp_le_trans _,
    sortedTotalRows_nodup ms hms, ?_⟩
  rw [batchInsertTotalMetrics_total]
  by_cases hl : ms.length = 0
  · rw [if_pos hl]
    have hnil : ms = [] := List.length_eq_zero.mp hl
    subst hnil
    cases h : lookupKey totalTableKey st.client_metrics_total (f, e) <;> rfl
  · rw [if_neg hl,
       lookupKey_applyRows totalTableKey totalTableAdd totalTableKey_add,
       filter_key_eq_lookup totalTableKey _ (sortedTotalRows_nodup ms hms),
       sortedTotalRows_lookup ms f e hms hf he]
    cases hg : ms.filter (fun m => decide (m.featureName = f ∧ m.environment = e)) with
    | nil =>
        cases h : lookupKey totalTableKey st.client_metrics_total (f, e) <;> rfl
    | cons m0 rest =>
        cases h : lookupKey totalTableKey st.client_metrics_total (f, e) <;> rfl

/-- C2 witness: the amended behaviour at a concrete batch and store. -/
theorem claim_C2_witness :
    lookupKey totalTableKey
        ((batchInsertTotalMetrics emptyStore
          (some [⟨"f1", "a1", "prod", 0, 2, 3, []⟩])).client_metrics_total)
        ("f1", "prod") = some ⟨"f1", "prod", 5⟩ := by
  have h := (claim_C2 [⟨"f1", "a1", "prod", 0, 2, 3, []⟩] emptyStore ("f1") ("prod")
    (by
      intro m hm
      rw [List.mem_singleton] at hm
      rw [hm]
      exact ⟨USfree_of_decide _ (by decide), USfree_of_decide _ (by decide)⟩)
    (USfree_of_decide _ (by decide)) (USfree_of_decide _ (by decide))).2.2
  rw [h]
  decide

end ClaimC2

section ClaimC6

theorem str_ne_empty_length (v : String) (h : v ≠ "") : v.length ≠ 0 := by
  intro hc
  apply h
  have hd : v.data = [] := List.length_eq_zero.mp hc
  cases v
  simp at hd
  rw [hd]

theorem setVariantCount_fresh (l : List (String × Nat)) (v : String) (c : Nat)
    (h : v ∉ l.map Prod.fst) : setVariantCount l v c = l ++ [(v, c)] := by
  have hany : l.any (fun p => decide (p.1 = v)) = false :=
    List.any_eq_false.mpr
      (fun p hp hc => h (List.mem_map.mpr ⟨p, hp, of_decide_eq_true hc⟩))
  simp only [setVariantCount, hany, Bool.false_eq_true, if_false]

theorem rowKey_joined (h : ClientMetricsEnvTable) (v : ClientMetricsEnvVariantTable) :
    rowKey (joined h v) = hKey h := rfl

theorem rowKey_nullJoined (h : ClientMetricsEnvTable) :
    rowKey (nullJoined h) = hKey h := rfl

theorem reducer_none (acc : List (List Char × IClientMetricsEnv)) (row : JoinedRow)
    (hrow : row.variant = none) (hnew : ∀ p ∈ acc, p.1 ≠ rowKey row) :
    variantRowReducer acc row = acc ++ [(rowKey row, initLogical row)] := by
  have hany : acc.any (fun p => decide (p.1 = rowKey row)) = false :=
    List.any_eq_false.mpr (fun p hp hc => hnew p hp (of_decide_eq_true hc))
  simp only [variantRowReducer, hrow, hany, Bool.false_eq_true, if_false]

theorem reducer_some_fresh (acc : List (List Char × IClientMetricsEnv))
    (row : JoinedRow) (v : String) (hrow : row.variant = some v)
    (hv : v.length ≠ 0) (hnew : ∀ p ∈ acc, p.1 ≠ rowKey row) :
    variantRowReducer acc row =
      acc ++ [(rowKey row, addVariantEntry (initLogical row) v row.count)] := by
  have hany : acc.any (fun p => decide (p.1 = rowKey row)) = false :=
    List.any_eq_false.mpr (fun p hp hc => hnew p hp (of_decide_eq_true hc))
  simp only [variantRowReducer, hrow, hany, Bool.false_eq_true, if_false, if_pos hv]
  rw [List.map_append]
  congr 1
  · rw [List.map_congr_left (fun p hp => by rw [if_neg (hnew p hp)])]
    exact List.map_id _
  · simp

theorem reducer_some_existing (acc0 : List (List Char × IClientMetricsEnv))
    (obj : IClientMetricsEnv) (row : JoinedRow) (v : String)
    (hrow : row.variant = some v) (hv : v.length ≠ 0)
    (hacc0 : ∀ p ∈ acc0, p.1 ≠ rowKey row) :
    variantRowReducer (acc0 ++ [(rowKey row, obj)]) row =
      acc0 ++ [(rowKey row, addVariantEntry obj v row.count)] := by
  have hany : (acc0 ++ [(rowKey row, obj)]).any
      (fun p => decide (p.1 = rowKey row)) = true := by
    rw [List.any_eq_true]
    exact ⟨(rowKey row, obj), List.mem_append_right _ (List.mem_cons_self _ _), by simp⟩
  simp only [variantRowReducer, hrow, hany, if_true, if_pos hv]
  rw [List.map_append]
  congr 1
  · rw [List.map_congr_left (fun p hp => by rw [if_neg (hacc0 p hp)])]
    exact List.map_id _
  · simp

theorem reducer_group_aux (h : ClientMetricsEnvTable)
    (vs : List ClientMetricsEnvVariantTable)
    (acc0 : List (List Char × IClientMetricsEnv)) (obj : IClientMetricsEnv)
    (hacc0 : ∀ p ∈ acc0, p.1 ≠ hKey h)
    (hn0 : ∀ v ∈ vs, v.variant ∉ obj.variants.map Prod.fst)
    (hn1 : ∀ v ∈ vs, v.variant ≠ "")
    (hnd : vs.Pairwise (fun a b => a.variant ≠ b.variant)) :
    (vs.map (joined h)).foldl variantRowReducer (acc0 ++ [(hKey h, obj)]) =
      acc0 ++ [(hKey h,
        { obj with variants :=
                     obj.variants ++ vs.map (fun v => (v.variant, v.count)) })] := by
  induction vs generalizing obj with
  | nil => simp
  | cons v rest ih =>
      rw [List.map_cons, List.foldl_cons]
      have hvlen : v.variant.length ≠ 0 :=
        str_ne_empty_length _ (hn1 v (List.mem_cons_self _ _))
      have hstep := reducer_some_existing acc0 obj (joined h v) v.variant rfl hvlen hacc0
      rw [rowKey_joined] at hstep
      rw [hstep]
      have haddv : addVariantEntry obj v.variant (joined h v).count =
          { obj with variants := obj.variants ++ [(v.variant, v.count)] } := by
        unfold addVariantEntry
        rw [setVariantCount_fresh _ _ _ (hn0 v (List.mem_cons_self _ _))]
        rfl
      rw [haddv]
      have hn0' : ∀ w ∈ rest, w.variant ∉
          ({ obj with variants := obj.variants ++ [(v.variant, v.count)]} :
            IClientMetricsEnv).variants.map Prod.fst := by
        intro w hw
        simp only [List.map_append, List.map_cons, List.map_nil]
        rw [List.mem_append]
        rintro (hc1 | hc2)
        · exact hn0 w (List.mem_cons_of_mem v hw) hc1
        · rw [List.mem_singleton] at hc2
          exact ((List.pairwise_cons.mp hnd).1 w hw) hc2.symm
      have hres := ih { obj with variants := obj.variants ++ [(v.variant, v.count)] }
        hn0' (fun w hw => hn1 w (List.mem_cons_of_mem v hw))
        (List.pairwise_cons.mp hnd).2
      rw [hres, List.map_cons]
      simp only [List.append_assoc, List.singleton_append]

theorem reducer_group (vt : List ClientMetricsEnvVariantTable)
    (h : ClientMetricsEnvTable) (acc : List (List Char × IClientMetricsEnv))
    (hacc : ∀ p ∈ acc, p.1 ≠ hKey h)
    (hvt : NodupKeys variantTableKey vt)
    (hvn : ∀ v ∈ vt, v.variant ≠ "") :
    (joinGroup vt h).foldl variantRowReducer acc =
      acc ++ [(hKey h, expectedObj vt h)] := by
  cases hvs : vt.filter (joinMatch h) with
  | nil =>
      simp only [joinGroup, hvs, List.isEmpty_nil, if_true]
      rw [List.foldl_cons, List.foldl_nil, reducer_none acc (nullJoined h) rfl hacc]
      unfold expectedObj initLogical nullJoined
      rw [hvs]
      rfl
  | cons v0 vs =>
      have hvmem : ∀ v ∈ v0 :: vs, v ∈ vt := by
        rw [← hvs]
        exact fun v hv => (List.filter_sublist vt).subset hv
      have hmatch : ∀ v ∈ v0 :: vs, joinMatch h v = true := by
        rw [← hvs]
        exact fun v hv => (List.mem_filter.mp hv).2
      have hnames : (v0 :: vs).Pairwise (fun a b => a.variant ≠ b.variant) := by
        have hsub : (v0 :: vs).Pairwise
            (fun a b => variantTableKey a ≠ variantTableKey b) :=
          hvs ▸ List.Pairwise.sublist (List.filter_sublist vt) hvt
        refine List.Pairwise.imp_of_mem ?_ hsub
        intro a b hma hmb hne hveq
        apply hne
        have hja := hmatch a hma
        have hjb := hmatch b hmb
        simp only [joinMatch, Bool.and_eq_true, decide_eq_true_eq] at hja hjb
        simp only [variantTableKey]
        rw [hja.1.1.1, hja.1.1.2, hja.1.2, hja.2, hveq,
           hjb.1.1.1, hjb.1.1.2, hjb.1.2, hjb.2]
      simp only [joinGroup, hvs, List.isEmpty_cons, Bool.false_eq_true, if_false]
      rw [List.map_cons, List.foldl_cons]
      have hvlen : v0.variant.length ≠ 0 :=
        str_ne_empty_length _ (hvn v0 (hvmem v0 (List.mem_cons_self _ _)))
      have hfresh := reducer_some_fresh acc (joined h v0) v0.variant rfl hvlen hacc
      rw [rowKey_joined] at hfresh
      rw [hfresh]
      have hstart : addVariantEntry (initLogical (joined h v0)) v0.variant
          (joined h v0).count =
          { initLogical (joined h v0) with variants := [(v0.variant, v0.count)] } := by
        unfold addVariantEntry
        rw [setVariantCount_fresh _ _ _ (by simp [initLogical])]
        rfl
      rw [hstart]
      have hn0 : ∀ w ∈ vs, w.variant ∉
          ({ initLogical (joined h v0) with variants := [(v0.variant, v0.count)]} :
            IClientMetricsEnv).variants.map Prod.fst := by
        intro w hw
        simp only [List.map_cons, List.map_nil, List.mem_singleton]
        intro hc
        exact ((List.pairwise_cons.mp hnames).1 w hw) hc.symm
      have hres := reducer_group_aux h vs acc
        { initLogical (joined h v0) with variants := [(v0.variant, v0.count)] }
        hacc hn0 (fun w hw => hvn w (hvmem w (List.mem_cons_of_mem v0 hw)))
        (List.pairwise_cons.mp hnames).2
      rw [hres]
      unfold expectedObj initLogical joined
      rw [hvs]
      rfl

theorem reducer_join (vt : List ClientMetricsEnvVariantTable)
    (hs : List ClientMetricsEnvTable) (acc : List (List Char × IClientMetricsEnv))
    (hacc : ∀ h' ∈ hs, ∀ p ∈ acc, p.1 ≠ hKey h')
    (hdist : hs.Pairwise (fun h1 h2 => hKey h1 ≠ hKey h2))
    (hvt : NodupKeys variantTableKey vt)
    (hvn : ∀ v ∈ vt, v.variant ≠ "") :
    (leftJoinRows hs vt).foldl variantRowReducer acc =
      acc ++ hs.map (fun h => (hKey h, expectedObj vt h)) := by
  induction hs generalizing acc with
  | nil => simp [leftJoinRows]
  | cons h rest ih =>
      rw [leftJoinRows, List.flatMap_cons, List.foldl_append]
      rw [reducer_group vt h acc (hacc h (List.mem_cons_self _ _)) hvt hvn]
      rw [show rest.flatMap (joinGroup vt) = leftJoinRows rest vt from rfl]
      have hacc' : ∀ h' ∈ rest, ∀ p ∈ acc ++ [(hKey h, expectedObj vt h)],
          p.1 ≠ hKey h' := by
        intro h' hh' p hp
        rcases List.mem_append.mp hp with hp1 | hp2
        · exact hacc h' (List.mem_cons_of_mem h hh') p hp1
        · rw [List.mem_singleton] at hp2
          rw [hp2]
          exact (List.pairwise_cons.mp hdist).1 h' hh'
      rw [ih (acc ++ [(hKey h, expectedObj vt h)]) hacc' (List.pairwise_cons.mp hdist).2]
      rw [List.append_assoc, List.singleton_append, List.map_cons]

/-- Reducer keys of two selected rows of the same feature with
underscore-free app and environment names distinguish the primary keys. -/
theorem hKey_inj (r1 r2 : ClientMetricsEnvTable)
    (hfeat : r1.feature_name = r2.feature_name)
    (ha1 : USfree r1.app_name.data) (ha2 : USfree r2.app_name.data)
    (he1 : USfree r1.environment.data) (he2 : USfree r2.environment.data)
    (h : hKey r1 = hKey r2) : envTableKey r1 = envTableKey r2 := by
  unfold hKey at h
  rw [hfeat] at h
  have h1 := List.append_cancel_left h
  have h2 := (List.cons.inj h1).2
  rcases us_join_inj _ _ _ _ ha1 ha2 h2 with ⟨happ, h3⟩
  rcases us_join_inj _ _ _ _ he1 he2 h3 with ⟨henv, h4⟩
  rcases us_join_inj _ _ _ _ (numStr_USfree _) (numStr_USfree _) h4 with ⟨hts, h5⟩
  simp only [envTableKey, Prod.mk.injEq]
  exact ⟨hfeat, String.ext happ, String.ext henv, numStr_inj _ _ hts⟩

/-- The full reconstruction statement: under the store invariants (unique
keys, nonempty variant names, underscore-free app and environment names),
`getMetricsForFeatureToggle` returns exactly one logical record per in-window
hourly row of the feature, in table order, each carrying its own columns and
the variants mapping of its tuple from the left join. -/
theorem getMetricsForFeatureToggle_eq (now hoursBack : Nat) (st : Store) (f : String)
    (hH : NodupKeys envTableKey st.client_metrics_env)
    (hV : NodupKeys variantTableKey st.client_metrics_env_variants)
    (hA : ∀ r ∈ st.client_metrics_env, USfree r.app_name.data)
    (hE : ∀ r ∈ st.client_metrics_env, USfree r.environment.data)
    (hvn : ∀ v ∈ st.client_metrics_env_variants, v.variant ≠ "") :
    getMetricsForFeatureToggle now st f hoursBack =
      (st.client_metrics_env.filter fun r =>
        decide (r.feature_name = f) && inWindow now hoursBack r.timestamp).map
        (expectedObj st.client_metrics_env_variants) := by
  simp only [getMetricsForFeatureToggle]
  have hdist : (st.client_metrics_env.filter fun r =>
      decide (r.feature_name = f) && inWindow now hoursBack r.timestamp).Pairwise
      (fun h1 h2 => hKey h1 ≠ hKey h2) := by
    have hsub : (st.client_metrics_env.filter fun r =>
        decide (r.feature_name = f) && inWindow now hoursBack r.timestamp).Pairwise
        (fun a b => envTableKey a ≠ envTableKey b) :=
      List.Pairwise.sublist (List.filter_sublist _) hH
    refine List.Pairwise.imp_of_mem ?_ hsub
    intro r1 r2 hr1 hr2 hne hkeq
    have hm1 := List.mem_filter.mp hr1
    have hm2 := List.mem_filter.mp hr2
    have hf1 : r1.feature_name = f := by
      have := hm1.2
      simp only [Bool.and_eq_true, decide_eq_true_eq] at this
      exact this.1
    have hf2 : r2.feature_name = f := by
      have := hm2.2
      simp only [Bool.and_eq_true, decide_eq_true_eq] at this
      exact this.1
    exact hne (hKey_inj r1 r2 (hf1.trans hf2.symm) (hA r1 hm1.1) (hA r2 hm2.1)
      (hE r1 hm1.1) (hE r2 hm2.1) hkeq)
  rw [reducer_join st.client_metrics_env_variants _ []
      (fun h' _ p hp => absurd hp (List.not_mem_nil p)) hdist hV hvn]
  rw [List.nil_append, List.map_map]
  rfl

/-- C6 counterexample, refuting two clauses of the claim.  First conjunct: two
stored records of feature `"f1"` with distinct (app, environment) tuples —
`("a", "b_c")` and `("a_b", "c")` — produce the same underscore-joined reducer
key, so the reducer merges the two tuples into one logical object (carrying
the first tuple's fields), contradicting "distinct tuples are never merged,
for all app/environment strings including those containing the underscore
character".  Remaining conjuncts: a stored variant record named `""` matches
its hourly record in the left join, yet the reducer's falsy `if (variant)`
check drops it, so the returned object's variants mapping is empty,
contradicting "a variants mapping built from that tuple's
VariantMetricRecords" over all variant strings. -/
theorem claim_C6_counterexample :
    getMetricsForFeatureToggle 7200
        ⟨[⟨"f1", "a", "b_c", 3600, 1, 0⟩, ⟨"f1", "a_b", "c", 3600, 1, 0⟩], [], []⟩
        ("f1") 24 =
      [⟨"f1", "a", "b_c", 3600, 1, 0, []⟩] ∧
    joinMatch ⟨"f1", "a1", "prod", 3600, 1, 0⟩
        ⟨"f1", "a1", "prod", 3600, "", 5⟩ = true ∧
    getMetricsForFeatureToggle 3600
        ⟨[⟨"f1", "a1", "prod", 3600, 1, 0⟩], [⟨"f1", "a1", "prod", 3600, "", 5⟩], []⟩
        ("f1") 1 =
      [⟨"f1", "a1", "prod", 3600, 1, 0, []⟩] := by
  decide

/-- C6 amended: under the store invariants (at most one row per key in both
tables, nonempty variant names) and for app/environment names free of the
underscore separator, `getMetricsForFeatureToggle` rebuilds exactly one
logical object per in-window (feature, app, environment, hour) record, in
table order, carrying a variants mapping built from that tuple's variant
records by the left join; hours without variant data yield an object with an
empty variants mapping, and distinct tuples are never merged.  Both
hypotheses are forced by the counterexample: names containing underscores
can collide in the string-joined reducer key and merge distinct tuples, and
a variant record named `""` is dropped from the mapping by the reducer's
falsy `if (variant)` check. -/
theorem claim_C6 (now hoursBack : Nat) (st : Store) (f : String)
    (hH : NodupKeys envTableKey st.client_metrics_env)
    (hV : NodupKeys variantTableKey st.client_metrics_env_variants)
    (hA : ∀ r ∈ st.client_metrics_env, USfree r.app_name.data)
    (hE : ∀ r ∈ st.client_metrics_env, USfree r.environment.data)
    (hvn : ∀ v ∈ st.client_metrics_env_variants, v.variant ≠ "") :
    getMetricsForFeatureToggle now st f hoursBack =
      (st.client_metrics_env.filter fun r =>
        decide (r.feature_name = f) && inWindow now hoursBack r.timestamp).map
        (expectedObj st.client_metrics_env_variants) ∧
    (getMetricsForFeatureToggle now st f hoursBack).length =
      (st.client_metrics_env.filter fun r =>
        decide (r.feature_name = f) && inWindow now hoursBack r.timestamp).length := by
  have h := getMetricsForFeatureToggle_eq now hoursBack st f hH hV hA hE hvn
  exact ⟨h, by rw [h, List.length_map]⟩

/-- C6 witness: the reconstruction at a concrete store with one hourly record
and one variant record. -/
theorem claim_C6_witness :
    getMetricsForFeatureToggle 3600
        ⟨[⟨"f1", "a1", "prod", 3600, 5, 2⟩], [⟨"f1", "a1", "prod", 3600, "A", 7⟩], []⟩
        ("f1") 1 =
      [⟨"f1", "a1", "prod", 3600, 5, 2, [("A", 7)]⟩] := by
  have h := (claim_C6 3600 1
    ⟨[⟨"f1", "a1", "prod", 3600, 5, 2⟩], [⟨"f1", "a1", "prod", 3600, "A", 7⟩], []⟩
    ("f1")
    (List.pairwise_singleton _ _) (List.pairwise_singleton _ _)
    (by
      intro r hr
      rw [List.mem_singleton] at hr
      rw [hr]
      exact USfree_of_decide _ (by decide))
    (by
      intro r hr
      rw [List.mem_singleton] at hr
      rw [hr]
      exact USfree_of_decide _ (by decide))
    (by
      intro v hv
      rw [List.mem_singleton] at hv
      rw [hv]
      decide)).1
  rw [h]
  decide

end ClaimC6

section ClaimC8

/-- C8: the windowed reads use `timestamp >= NOW() - INTERVAL hoursBack
hours`, so a record whose hour is exactly `hoursBack` hours old is included
in all three reads — it appears among the seen apps, among the seen toggles,
and as a reconstructed object of `getMetricsForFeatureToggle` — while a
record one second older than the boundary is excluded from all three. -/
theorem claim_C8 (now hoursBack : Nat) (st : Store) (f : String)
    (r : ClientMetricsEnvTable)
    (hH : NodupKeys envTableKey st.client_metrics_env)
    (hV : NodupKeys variantTableKey st.client_metrics_env_variants)
    (hA : ∀ x ∈ st.client_metrics_env, USfree x.app_name.data)
    (hE : ∀ x ∈ st.client_metrics_env, USfree x.environment.data)
    (hvn : ∀ v ∈ st.client_metrics_env_variants, v.variant ≠ "")
    (hr : r ∈ st.client_metrics_env) (hrf : r.feature_name = f)
    (hts : r.timestamp = now - hoursBack * 3600) :
    r.app_name ∈ getSeenAppsForFeatureToggle now st f hoursBack ∧
    r.feature_name ∈ getSeenTogglesForApp now st r.app_name hoursBack ∧
    expectedObj st.client_metrics_env_variants r ∈
      getMetricsForFeatureToggle now st f hoursBack ∧
    (∀ r' : ClientMetricsEnvTable, r'.timestamp + 1 = now - hoursBack * 3600 →
      getSeenAppsForFeatureToggle now ⟨[r'], [], []⟩ f hoursBack = [] ∧
      getSeenTogglesForApp now ⟨[r'], [], []⟩ r'.app_name hoursBack = [] ∧
      getMetricsForFeatureToggle now ⟨[r'], [], []⟩ f hoursBack = []) := by
  have hwin : inWindow now hoursBack r.timestamp = true := by
    unfold inWindow
    rw [hts]
    exact decide_eq_true (le_refl _)
  have hpred : (decide (r.feature_name = f) && inWindow now hoursBack r.timestamp)
      = true := by
    rw [Bool.and_eq_true]
    exact ⟨decide_eq_true hrf, hwin⟩
  have hpredb : (decide (r.app_name = r.app_name) &&
      inWindow now hoursBack r.timestamp) = true := by
    rw [Bool.and_eq_true]
    exact ⟨decide_eq_true rfl, hwin⟩
  refine ⟨?_, ?_, ?_, ?_⟩
  · simp only [getSeenAppsForFeatureToggle]
    rw [mem_sortByCmp, List.mem_dedup]
    exact List.mem_map.mpr ⟨r, List.mem_filter.mpr ⟨hr, hpred⟩, rfl⟩
  · simp only [getSeenTogglesForApp]
    rw [mem_sortByCmp, List.mem_dedup]
    exact List.mem_map.mpr ⟨r, List.mem_filter.mpr ⟨hr, hpredb⟩, rfl⟩
  · rw [getMetricsForFeatureToggle_eq now hoursBack st f hH hV hA hE hvn]
    exact List.mem_map.mpr ⟨r, List.mem_filter.mpr ⟨hr, hpred⟩, rfl⟩
  · intro r' hts'
    have hwin' : inWindow now hoursBack r'.timestamp = false := by
      unfold inWindow
      rw [decide_eq_false_iff_not]
      omega
    have hfila : List.filter (fun x : ClientMetricsEnvTable =>
        decide (x.feature_name = f) && inWindow now hoursBack x.timestamp) [r'] = [] := by
      rw [List.filter_cons, hwin', Bool.and_false]
      rfl
    have hfilb : List.filter (fun x : ClientMetricsEnvTable =>
        decide (x.app_name = r'.app_name) && inWindow now hoursBack x.timestamp)
        [r'] = [] := by
      rw [List.filter_cons, hwin', Bool.and_false]
      rfl
    refine ⟨?_, ?_, ?_⟩
    · simp only [getSeenAppsForFeatureToggle]
      rw [hfila]
      rfl
    · simp only [getSeenTogglesForApp]
      rw [hfilb]
      rfl
    · simp only [getMetricsForFeatureToggle]
      rw [hfila]
      rfl

/-- C8 witness: the boundary record of a concrete store is reported by all
three reads, and the one-second-older record is excluded. -/
theorem claim_C8_witness :
    ("a1" : String) ∈ getSeenAppsForFeatureToggle 90000
        ⟨[⟨"f1", "a1", "prod", 3600, 1, 0⟩], [], []⟩ ("f1") 24 ∧
    getSeenAppsForFeatureToggle 90000 ⟨[⟨"f1", "a1", "prod", 3599, 1, 0⟩], [], []⟩
        ("f1") 24 = [] := by
  have h := claim_C8 90000 24 ⟨[⟨"f1", "a1", "prod", 3600, 1, 0⟩], [], []⟩ ("f1")
    ⟨"f1", "a1", "prod", 3600, 1, 0⟩
    (List.pairwise_singleton _ _) List.Pairwise.nil
    (by
      intro x hx
      rw [List.mem_singleton] at hx
      rw [hx]
      exact USfree_of_decide _ (by decide))
    (by
      intro x hx
      rw [List.mem_singleton] at hx
      rw [hx]
      exact USfree_of_decide _ (by decide))
    (fun v hv => absurd hv (List.not_mem_nil v))
    (List.mem_cons_self _ _) rfl (by decide)
  exact ⟨h.1, (h.2.2.2 ⟨"f1", "a1", "prod", 3599, 1, 0⟩ (by decide)).1⟩

end ClaimC8

end UnleashMetrics
